import Mathlib

/-!
Verification development for the Diluvium Lua 5.4 bytecode analyzer
(`src/analyze.c`).  The data model and the analysis passes are shallowly
embedded: every definition below is a direct translation of the
corresponding C function, keeping the source's names and control flow.
Instructions are modelled at the decoded-operand level (the C code accesses
instruction words only through `GET_OPCODE` / `GETARG_*`), so an
`Instruction` carries its opcode and operand fields directly.
-/

set_option maxHeartbeats 1000000

namespace Diluvium

/-- The Lua 5.4 opcode set of the Diluvium fork (`lopcodes.h`), including the
fork's null-coalescing opcode `OP_2Q` (spelled `TWOQ` here since Lean names
cannot start with a digit). -/
inductive OpCode where
  | MOVE | LOADI | LOADF | LOADK | LOADKX | LOADFALSE | LFALSESKIP | LOADTRUE
  | LOADNIL | GETUPVAL | SETUPVAL | GETTABUP | GETTABLE | GETI | GETFIELD
  | SETTABUP | SETTABLE | SETI | SETFIELD | NEWTABLE | SELF
  | ADDI | ADDK | SUBK | MULK | MODK | POWK | DIVK | IDIVK
  | BANDK | BORK | BXORK | SHRI | SHLI
  | ADD | SUB | MUL | MOD | POW | DIV | IDIV | BAND | BOR | BXOR | SHL | SHR
  | MMBIN | MMBINI | MMBINK | UNM | BNOT | NOT | LEN | CONCAT
  | CLOSE | TBC | JMP | EQ | LT | LE | EQK | EQI | LTI | LEI | GTI | GEI
  | TEST | TESTSET | CALL | TAILCALL | RETURN | RETURN0 | RETURN1
  | FORLOOP | FORPREP | TFORPREP | TFORCALL | TFORLOOP | SETLIST
  | CLOSURE | VARARG | VARARGPREP | EXTRAARG | TWOQ
  deriving DecidableEq, Repr, BEq

/-- One decoded instruction word: the opcode together with all the operand
fields the analyzer ever extracts (`GETARG_A/B/C/k/Bx/Ax`). -/
structure Instruction where
  op : OpCode
  a : Nat
  b : Nat
  c : Nat
  k : Bool
  bx : Nat
  ax : Nat
  deriving DecidableEq, Repr

/-- Default used for an out-of-range fetch; `EXTRAARG` is inert for every
scan (it is in no register-writer list), mirroring that the C code never
reads out of range on well-formed input. -/
instance : Inhabited Instruction := ⟨⟨.EXTRAARG, 0, 0, 0, false, 0, 0⟩⟩

/-- A constant-pool value (`TValue` restricted to what a constant pool can
hold).  Floats are carried by their printf `%.17g` rendering: the analyzer
never computes with float values, it only copies and prints them. -/
inductive LuaValue where
  | nil
  | boolean (b : Bool)
  | int (i : Int)
  | flt (repr17 : String)
  | str (s : String)
  deriving DecidableEq, Repr

/-- One `{pc, line}` checkpoint of the sparse absolute line-info table. -/
structure AbsLineInfo where
  pc : Nat
  line : Int
  deriving DecidableEq, Repr

instance : Inhabited AbsLineInfo := ⟨⟨0, 0⟩⟩

/-- A function prototype (`Proto`): exactly the fields `analyze.c` reads.
`upvalues` / `locvars` carry the (possibly absent) debug names;
`lineinfo` is `none` when the dense line table is absent (NULL). -/
inductive Proto where
  | mk (source : Option String) (linedefined : Int) (lastlinedefined : Int)
      (numparams : Nat) (is_vararg : Bool)
      (code : List Instruction) (k : List LuaValue)
      (upvalues : List (Option String)) (locvars : List (Option String))
      (abslineinfo : List AbsLineInfo) (lineinfo : Option (List Int))
      (p : List Proto)

def Proto.source : Proto → Option String
  | .mk s _ _ _ _ _ _ _ _ _ _ _ => s

def Proto.linedefined : Proto → Int
  | .mk _ l _ _ _ _ _ _ _ _ _ _ => l

def Proto.lastlinedefined : Proto → Int
  | .mk _ _ l _ _ _ _ _ _ _ _ _ => l

def Proto.numparams : Proto → Nat
  | .mk _ _ _ n _ _ _ _ _ _ _ _ => n

def Proto.is_vararg : Proto → Bool
  | .mk _ _ _ _ v _ _ _ _ _ _ _ => v

def Proto.code : Proto → List Instruction
  | .mk _ _ _ _ _ c _ _ _ _ _ _ => c

def Proto.k : Proto → List LuaValue
  | .mk _ _ _ _ _ _ ks _ _ _ _ _ => ks

def Proto.upvalues : Proto → List (Option String)
  | .mk _ _ _ _ _ _ _ u _ _ _ _ => u

def Proto.locvars : Proto → List (Option String)
  | .mk _ _ _ _ _ _ _ _ lv _ _ _ => lv

def Proto.abslineinfo : Proto → List AbsLineInfo
  | .mk _ _ _ _ _ _ _ _ _ al _ _ => al

def Proto.lineinfo : Proto → Option (List Int)
  | .mk _ _ _ _ _ _ _ _ _ _ li _ => li

def Proto.p : Proto → List Proto
  | .mk _ _ _ _ _ _ _ _ _ _ _ ps => ps

/-- `f->code[i]` (the C code only reads in-range indices; the default is the
inert `EXTRAARG` instruction). -/
def fetch (f : Proto) (i : Nat) : Instruction :=
  (f.code.get? i).getD default

/- -------------------------------------------------------------------------
Report-side enumerations, with their published integer tags.
------------------------------------------------------------------------- -/

inductive ReturnKind where
  | UNKNOWN | VOID | TABLE | CALL | UPVALUE | CONSTANT | MULTI | MIXED
  deriving DecidableEq, Repr, Fintype

/-- The numeric contract for `ReturnKind` (the C enum values). -/
def ReturnKind.toNat : ReturnKind → Nat
  | .UNKNOWN => 0
  | .VOID => 1
  | .TABLE => 2
  | .CALL => 3
  | .UPVALUE => 4
  | .CONSTANT => 5
  | .MULTI => 6
  | .MIXED => 7

inductive ConstantKind where
  | STRING | INTEGER | FLOAT | BOOL | NULL
  deriving DecidableEq, Repr

def ConstantKind.toNat : ConstantKind → Nat
  | .STRING => 0
  | .INTEGER => 1
  | .FLOAT => 2
  | .BOOL => 3
  | .NULL => 4

inductive CallKind where
  | UNKNOWN | GLOBAL | FIELD | METHOD | LOCAL
  deriving DecidableEq, Repr

def CallKind.toNat : CallKind → Nat
  | .UNKNOWN => 0
  | .GLOBAL => 1
  | .FIELD => 2
  | .METHOD => 3
  | .LOCAL => 4

/-- `ConstantEntry`: `f_val` carries the `%.17g` rendering (see `LuaValue`).
Fields other than the one selected by `kind` keep their zero defaults. -/
structure ConstantEntry where
  kind : ConstantKind
  s_val : Option String
  i_val : Int
  f_val : String
  b_val : Bool
  deriving DecidableEq, Repr

structure TableInfo where
  array_size : Nat
  hash_size : Nat
  estimated_bytes : Nat
  contains_closures : Bool
  deriving DecidableEq, Repr

structure ClosureInfo where
  line_defined : Int
  upvalue_count : Nat
  deriving DecidableEq, Repr

structure CallSite where
  line : Int
  kind : CallKind
  callee : Option String
  arg_count : Int
  is_tail : Bool
  deriving DecidableEq, Repr

structure ReadEntry where
  table_name : String
  field_name : String
  deriving DecidableEq, Repr

structure FunctionInfo where
  source : String
  line_defined : Int
  last_line : Int
  param_count : Nat
  is_vararg : Bool
  is_vararg_used : Bool
  is_method : Bool
  param_names : List String
  upvalue_count : Nat
  upvalue_names : List String
  return_kind : ReturnKind
  table_info : TableInfo
  had_real_return : Bool
  closures : List ClosureInfo
  constants : List ConstantEntry
  child_proto_indices : List Nat
  call_sites : List CallSite
  reads : List ReadEntry
  deriving DecidableEq, Repr

structure GlobalEntry where
  name : String
  is_function : Bool
  function_index : Int
  deriving DecidableEq, Repr

structure InterfaceReport where
  functions : List FunctionInfo
  globals : List GlobalEntry
  deriving Repr

/- -------------------------------------------------------------------------
OP_NEWTABLE size decoding (`decode_hash_size` / `decode_array_size`).
------------------------------------------------------------------------- -/

/-- `decode_hash_size`: `B == 0` means no hash part, otherwise `1 << (B-1)`. -/
def decode_hash_size (b : Nat) : Nat :=
  if b = 0 then 0 else 1 <<< (b - 1)

/-- `decode_array_size`: without the `k` flag the raw `C` field; with it,
the `EXTRAARG` continuation's `Ax` forms the high bits (`(Ax << 8) | C`),
falling back to `C` when no `EXTRAARG` follows at `pc+1`. -/
def decode_array_size (f : Proto) (pc : Nat) : Nat :=
  let newtable := fetch f pc
  if newtable.k = false then newtable.c
  else
    match f.code.get? (pc + 1) with
    | some extra =>
        if extra.op = .EXTRAARG then (extra.ax <<< 8) ||| newtable.c
        else newtable.c
    | none => newtable.c

/- -------------------------------------------------------------------------
Backward register-provenance scans.
------------------------------------------------------------------------- -/

/-- The instruction forms `find_reg_source` treats as writing `R[A]`
(its `switch` case list; `OP_CLOSURE` is handled before the switch). -/
def frs_writes : OpCode → Bool
  | .MOVE | .LOADI | .LOADF
  | .LOADK | .LOADKX | .LOADFALSE
  | .LFALSESKIP | .LOADTRUE | .LOADNIL
  | .GETUPVAL | .GETTABUP | .GETTABLE
  | .GETI | .GETFIELD | .NEWTABLE
  | .SELF
  | .ADDI | .ADDK | .SUBK
  | .MULK | .MODK | .POWK
  | .DIVK | .IDIVK | .BANDK
  | .BORK | .BXORK | .SHRI
  | .SHLI
  | .ADD | .SUB | .MUL
  | .DIV | .IDIV | .MOD
  | .POW | .BAND | .BOR
  | .BXOR | .SHL | .SHR
  | .MMBIN | .MMBINI | .MMBINK
  | .UNM | .BNOT | .NOT
  | .LEN | .CONCAT
  | .CALL | .TAILCALL
  | .VARARG => true
  | _ => false

/-- The writer list of `find_newtable_for_reg`'s `switch` (same as
`frs_writes` but with `OP_CLOSURE` added and `OP_NEWTABLE` removed —
`OP_NEWTABLE` is the search target, handled before the switch). -/
def fnt_writes : OpCode → Bool
  | .MOVE | .LOADI | .LOADF
  | .LOADK | .LOADKX | .LOADFALSE
  | .LFALSESKIP | .LOADTRUE | .LOADNIL
  | .GETUPVAL | .GETTABUP | .GETTABLE
  | .GETI | .GETFIELD | .SELF
  | .ADDI | .ADDK | .SUBK
  | .MULK | .MODK | .POWK
  | .DIVK | .IDIVK | .BANDK
  | .BORK | .BXORK | .SHRI | .SHLI
  | .ADD | .SUB | .MUL
  | .DIV | .IDIV | .MOD
  | .POW | .BAND | .BOR
  | .BXOR | .SHL | .SHR
  | .MMBIN | .MMBINI | .MMBINK
  | .UNM | .BNOT | .NOT
  | .LEN | .CONCAT
  | .CALL | .TAILCALL
  | .CLOSURE | .VARARG => true
  | _ => false

/-- Loop body of `find_reg_source`: examine index `i`, then `i-1`, …,
for `n` iterations (the caller arranges `n ≤ i+1`, mirroring the C loop
bound `i >= limit`). -/
def frs_go (f : Proto) (reg : Nat) : Nat → Nat → Int
  | _, 0 => -1
  | i, n + 1 =>
    let ins := fetch f i
    if ins.op = .CLOSURE ∧ ins.a = reg then 1
    else if frs_writes ins.op = true ∧ ins.a = reg then 0
    else frs_go f reg (i - 1) n

/-- `find_reg_source`: walk back at most 16 instructions from `pc`;
`1` = a closure wrote `reg`, `0` = something else did, `-1` = indeterminate.
The C loop runs from `pc-1` down to `limit = max(pc-16, 0)`, i.e. for
`pc - limit` iterations. -/
def find_reg_source (f : Proto) (pc reg : Nat) : Int :=
  frs_go f reg (pc - 1) (pc - (pc - 16))

/-- Loop body of `find_newtable_for_reg` (no window: the C loop runs from
`pc-1` all the way down to 0, i.e. for `pc` iterations). -/
def fnt_go (f : Proto) (reg : Nat) : Nat → Nat → Int
  | _, 0 => -1
  | i, n + 1 =>
    let ins := fetch f i
    if ins.op = .NEWTABLE ∧ ins.a = reg then (i : Int)
    else if (ins.op = .SETFIELD ∨ ins.op = .SETTABLE ∨
             ins.op = .SETI ∨ ins.op = .SETLIST) ∧ ins.a = reg then
      fnt_go f reg (i - 1) n
    else if fnt_writes ins.op = true ∧ ins.a = reg then -1
    else fnt_go f reg (i - 1) n

/-- `find_newtable_for_reg`: find the `OP_NEWTABLE` that produced `reg`,
skipping table-store instructions (`SETFIELD`/`SETTABLE`/`SETI`/`SETLIST`)
that use `reg` without reassigning it; any other writer, or running out of
instructions, yields `-1`. -/
def find_newtable_for_reg (f : Proto) (pc reg : Nat) : Int :=
  fnt_go f reg (pc - 1) pc

/- -------------------------------------------------------------------------
`classify_return`.
------------------------------------------------------------------------- -/

/-- Inner loop of `classify_return` for single-value returns: walk back at
most 24 instructions looking for the first instruction whose `A` field is
the returned register and classify by its opcode (an unrecognized writer
breaks out → UNKNOWN). -/
def cr_go (f : Proto) (reg : Nat) : Nat → Nat → ReturnKind
  | _, 0 => .UNKNOWN
  | i, n + 1 =>
    let prev := fetch f i
    if prev.a ≠ reg then cr_go f reg (i - 1) n
    else if prev.op = .CALL ∨ prev.op = .TAILCALL then .CALL
    else if prev.op = .GETUPVAL then .UPVALUE
    else if prev.op = .GETTABUP ∨ prev.op = .GETTABLE ∨
            prev.op = .GETFIELD ∨ prev.op = .GETI then .UPVALUE
    else if prev.op = .CLOSURE then .UNKNOWN
    else if prev.op = .LOADK ∨ prev.op = .LOADI ∨ prev.op = .LOADF ∨
            prev.op = .LOADTRUE ∨ prev.op = .LOADFALSE then .CONSTANT
    else .UNKNOWN

/-- `classify_return` (the `last_newtable_pc` parameter is unused in the C
body as well). -/
def classify_return (f : Proto) (pc : Nat) (lastNewtablePc : Int) : ReturnKind :=
  let ins := fetch f pc
  if ins.op = .RETURN0 then .VOID
  else if ins.op = .RETURN1 then
    let reg := ins.a
    if 0 ≤ find_newtable_for_reg f pc reg then .TABLE
    else cr_go f reg (pc - 1) (pc - (pc - 24))
  else
    -- OP_RETURN: A = first register, B = count+1 (0 = variable)
    if ins.b = 1 then .VOID
    else if ins.b = 0 then .MULTI
    else if ins.b = 2 then
      (if 0 ≤ find_newtable_for_reg f pc ins.a then .TABLE else .UNKNOWN)
    else .MULTI

/- -------------------------------------------------------------------------
`resolve_callee`.
------------------------------------------------------------------------- -/

/-- Secondary short backward scan inside `resolve_callee`'s `OP_GETFIELD`
case: try to resolve the base register as a `GETTABUP` load of a named key
(window 16; any other writer to the base register gives up with `"?"`). -/
def rc_inner_go (f : Proto) (src_reg : Nat) : Nat → Nat → String
  | _, 0 => "?"
  | j, n + 1 =>
    let prev := fetch f j
    if prev.op = .GETTABUP ∧ prev.a = src_reg then
      match f.k.get? prev.c with
      | some (.str nm) => nm
      | _ => "?"
    else if prev.a = src_reg then "?"
    else rc_inner_go f src_reg (j - 1) n

/-- Main loop of `resolve_callee` (window 32): find the writer of the callee
register and classify it.  A `break` in the C code leaves the outputs at
their initial `(UNKNOWN, NULL)`. -/
def rc_go (f : Proto) (callee_reg : Nat) : Nat → Nat → CallKind × Option String
  | _, 0 => (.UNKNOWN, none)
  | i, n + 1 =>
    let ins := fetch f i
    if ins.a ≠ callee_reg then rc_go f callee_reg (i - 1) n
    else if ins.op = .GETTABUP then
      match f.k.get? ins.c with
      | some (.str field) =>
          if ins.b = 0 then (.GLOBAL, some field)
          else
            let upvname :=
              match f.upvalues.get? ins.b with
              | some (some nm) => nm
              | _ => "?"
            (.FIELD, some (upvname ++ "." ++ field))
      | _ => (.UNKNOWN, none)
    else if ins.op = .GETFIELD then
      match f.k.get? ins.c with
      | some (.str field) =>
          let src_name := rc_inner_go f ins.b (i - 1) (i - (i - 16))
          (.FIELD, some (src_name ++ "." ++ field))
      | _ => (.UNKNOWN, none)
    else if ins.op = .SELF then
      match f.k.get? ins.c with
      | some (.str key) => (.METHOD, some key)
      | _ => (.UNKNOWN, none)
    else if ins.op = .MOVE ∨ ins.op = .GETUPVAL then (.LOCAL, none)
    else if ins.op = .CLOSURE then (.LOCAL, none)
    else (.UNKNOWN, none)

/-- `resolve_callee`: kind and (owned) name of the callee of the call at
`call_pc`, whose callee value sits in `R[callee_reg]`. -/
def resolve_callee (f : Proto) (call_pc callee_reg : Nat) : CallKind × Option String :=
  rc_go f callee_reg (call_pc - 1) (call_pc - (call_pc - 32))

/- -------------------------------------------------------------------------
Call-site line numbers.
------------------------------------------------------------------------- -/

/-- Binary search over the sorted `{pc, line}` checkpoints: the line of the
last checkpoint with `checkpoint.pc <= pc`, else the initial `best = 0`.
The C loop's `hi` is represented as `hi1 = hi + 1` so it stays a `Nat`
(the loop condition `lo <= hi` becomes `lo < hi1`). -/
def abs_go (arr : List AbsLineInfo) (pc : Nat) (lo hi1 : Nat) (best : Int) : Int :=
  if h : lo < hi1 then
    let mid := (lo + hi1 - 1) / 2
    let e := (arr.get? mid).getD default
    if e.pc ≤ pc then abs_go arr pc (mid + 1) hi1 e.line
    else abs_go arr pc lo mid best
  else best
termination_by hi1 - lo
decreasing_by
  · have h2 : lo ≤ (lo + hi1 - 1) / 2 := by
      rw [Nat.le_div_iff_mul_le (by omega : 0 < 2)]; omega
    omega
  · have h2 : (lo + hi1 - 1) / 2 < hi1 := by
      rw [Nat.div_lt_iff_lt_mul (by omega : 0 < 2)]; omega
    omega

/-- Best-effort source line of the instruction at `pc`: the sparse
checkpoint table when present, else the dense signed-delta table summed
from the start, else 0. -/
def computeLine (f : Proto) (pc : Nat) : Int :=
  if f.abslineinfo ≠ [] then abs_go f.abslineinfo pc 0 f.abslineinfo.length 0
  else
    match f.lineinfo with
    | some li =>
        if pc < f.code.length then
          ((li.take f.code.length).take (pc + 1)).foldl (· + ·) f.linedefined
        else 0
    | none => 0

/- -------------------------------------------------------------------------
Report construction helpers.
------------------------------------------------------------------------- -/

/-- `push_read`: record a `(table, field)` read, deduplicating identical
pairs. -/
def push_read (reads : List ReadEntry) (tbl field : String) : List ReadEntry :=
  if reads.any (fun r => r.table_name = tbl ∧ r.field_name = field) then reads
  else reads ++ [⟨tbl, field⟩]

/-- `upsert_global`: add a global entry, deduplicating by name.  On a
duplicate, `is_function` may be promoted to true and a nonnegative
`function_index` overwrites the stored one. -/
def upsert_global (globals : List GlobalEntry) (name : String)
    (is_fn : Bool) (function_index : Int) : List GlobalEntry :=
  match globals with
  | [] => [⟨name, is_fn, function_index⟩]
  | g :: rest =>
      if g.name = name then
        { g with
          is_function := if is_fn then true else g.is_function,
          function_index := if 0 ≤ function_index then function_index
                            else g.function_index } :: rest
      else g :: upsert_global rest name is_fn function_index

/-- The per-return-site merge of `analyze_function`'s `OP_RETURN*` case:
UNKNOWN/VOID are weak and are overwritten by any stronger kind; two
different non-weak kinds give MIXED; UNKNOWN is promoted to VOID only when
no real (non-weak) return site has been seen yet. -/
def mergeReturnKind : ReturnKind × Bool → ReturnKind → ReturnKind × Bool :=
  fun s kind =>
    let rk := s.1
    let had := s.2
    let rk' :=
      if rk ≠ .MIXED then
        let cur_weak := rk = .UNKNOWN ∨ rk = .VOID
        let new_weak := kind = .UNKNOWN ∨ kind = .VOID
        if cur_weak ∧ ¬new_weak then kind
        else if ¬cur_weak ∧ ¬new_weak ∧ kind ≠ rk then ReturnKind.MIXED
        else if rk = .UNKNOWN ∧ new_weak ∧ kind = .VOID then
          (if ¬(had = true) then ReturnKind.VOID else rk)
        else rk
      else rk
    let had' := if kind ≠ .UNKNOWN ∧ kind ≠ .VOID then true else had
    (rk', had')

/- -------------------------------------------------------------------------
Per-function bytecode scan (`analyze_function`'s main loop), as a fold over
the program counters with explicit state.
------------------------------------------------------------------------- -/

/-- The mutable state of `analyze_function`'s bytecode scan: the growing
`FunctionInfo`, the report-wide globals list, the pending global→proto
stash (indexed by absolute global slot), and the `last_newtable_*` locals. -/
structure ScanState where
  fi : FunctionInfo
  globals : List GlobalEntry
  pending : List (Option Proto)
  last_newtable_pc : Int
  last_newtable_arr : Nat
  last_newtable_hsh : Nat

/-- The `OP_RETURN`/`OP_RETURN0`/`OP_RETURN1` case of the scan. -/
def returnStep (f : Proto) (st : ScanState) (pc : Nat) : ScanState :=
  let ins := fetch f pc
  let kind := classify_return f pc st.last_newtable_pc
  let merged := mergeReturnKind (st.fi.return_kind, st.fi.had_real_return) kind
  let ti' :=
    if kind = .TABLE then
      -- use the specific NEWTABLE for the returned register, falling back
      -- to the most recent one when register tracing fails
      let nt_pc := find_newtable_for_reg f pc ins.a
      let arr := if 0 ≤ nt_pc then decode_array_size f nt_pc.toNat
                 else st.last_newtable_arr
      let hsh := if 0 ≤ nt_pc then decode_hash_size (fetch f nt_pc.toNat).b
                 else st.last_newtable_hsh
      { st.fi.table_info with
        array_size := arr, hash_size := hsh,
        estimated_bytes := 32 + arr * 16 + hsh * 32 }
    else st.fi.table_info
  { st with fi := { st.fi with
      return_kind := merged.1, had_real_return := merged.2, table_info := ti' } }

/-- The `OP_CLOSURE` case: closures that capture at least one upvalue are
recorded, and (as the C code's in-branch `contains_closures = 1`
assignment) the table-info flag is promoted to true. -/
def closureStep (f : Proto) (st : ScanState) (pc : Nat) : ScanState :=
  let ins := fetch f pc
  let add : List ClosureInfo :=
    match f.p.get? ins.bx with
    | some child =>
        if 0 < child.upvalues.length then
          [⟨child.linedefined, child.upvalues.length⟩]
        else []
    | none => []
  { st with fi := { st.fi with
      closures := st.fi.closures ++ add,
      table_info := { st.fi.table_info with
        contains_closures := st.fi.table_info.contains_closures || !add.isEmpty } } }

/-- Backward scan of the `OP_SETTABUP` case (window 16): was the assigned
value produced by an `OP_CLOSURE`?  Returns the flag and the child proto
(`f->p[bx]` when in range). -/
def stu_go (f : Proto) (val_reg : Nat) : Nat → Nat → Bool × Option Proto
  | _, 0 => (false, none)
  | j, n + 1 =>
    let prev := fetch f j
    if prev.op = .CLOSURE ∧ prev.a = val_reg then
      (true, f.p.get? prev.bx)
    else if prev.a = val_reg then (false, none)
    else stu_go f val_reg (j - 1) n

/-- The `OP_SETTABUP` case: record a write to `_ENV` (upvalue 0) under a
string key, deduplicated through `upsert_global` (always with
`function_index = -1`; resolution happens after recursion), stashing the
child proto for post-recursion resolution when a new entry was created. -/
def settabupUpdate (f : Proto) (globals : List GlobalEntry)
    (pending : List (Option Proto)) (pc : Nat) :
    List GlobalEntry × List (Option Proto) :=
  let ins := fetch f pc
  if ins.a ≠ 0 then (globals, pending)
  else
    match f.k.get? ins.b with
    | some (.str name) =>
        let fnInfo :=
          if ins.k = false then stu_go f ins.c (pc - 1) (pc - (pc - 16))
          else (false, none)
        let global_slot := globals.length
        let globals' := upsert_global globals name fnInfo.1 (-1)
        let pending' :=
          match fnInfo.2 with
          | some child =>
              if global_slot < globals'.length then
                pending ++ List.replicate (global_slot - pending.length) none
                  ++ [some child]
              else pending
          | none => pending
        (globals', pending')
    | _ => (globals, pending)

def settabupStep (f : Proto) (st : ScanState) (pc : Nat) : ScanState :=
  let upd := settabupUpdate f st.globals st.pending pc
  { st with globals := upd.1, pending := upd.2 }

/-- The `OP_GETTABUP` case: record a read from `_ENV` or a named upvalue. -/
def gettabupStep (f : Proto) (st : ScanState) (pc : Nat) : ScanState :=
  let ins := fetch f pc
  let reads' :=
    match f.k.get? ins.c with
    | some (.str field) =>
        let tbl :=
          if ins.b ≠ 0 then
            match f.upvalues.get? ins.b with
            | some (some nm) => nm
            | _ => "_ENV"
          else "_ENV"
        push_read st.fi.reads tbl field
    | _ => st.fi.reads
  { st with fi := { st.fi with reads := reads' } }

/-- The `OP_GETFIELD` case: record a one-level field read under the
unresolved-register sentinel `"?"`. -/
def getfieldStep (f : Proto) (st : ScanState) (pc : Nat) : ScanState :=
  let ins := fetch f pc
  let reads' :=
    match f.k.get? ins.c with
    | some (.str field) => push_read st.fi.reads "?" field
    | _ => st.fi.reads
  { st with fi := { st.fi with reads := reads' } }

/-- The `CallSite` record built by the `OP_CALL`/`OP_TAILCALL` case. -/
def callSiteOf (f : Proto) (pc : Nat) : CallSite :=
  let ins := fetch f pc
  let rc := resolve_callee f pc ins.a
  { line := computeLine f pc
    kind := rc.1
    callee := rc.2
    arg_count := if ins.b = 0 then -1 else (ins.b : Int) - 1
    is_tail := decide (ins.op = .TAILCALL) }

/-- One iteration of `analyze_function`'s bytecode scan (the big `switch`).
`OP_2Q` and every opcode not listed fall through to the default no-op. -/
def step (f : Proto) (st : ScanState) (pc : Nat) : ScanState :=
  let ins := fetch f pc
  match ins.op with
  | .NEWTABLE =>
      { st with
        last_newtable_pc := Int.ofNat pc,
        last_newtable_arr := decode_array_size f pc,
        last_newtable_hsh := decode_hash_size ins.b }
  | .RETURN | .RETURN0 | .RETURN1 => returnStep f st pc
  | .CLOSURE => closureStep f st pc
  | .SETTABUP => settabupStep f st pc
  | .VARARG => { st with fi := { st.fi with is_vararg_used := true } }
  | .GETTABUP => gettabupStep f st pc
  | .GETFIELD => getfieldStep f st pc
  | .CALL | .TAILCALL =>
      { st with fi := { st.fi with
          call_sites := st.fi.call_sites ++ [callSiteOf f pc] } }
  | _ => st

/-- The constant-pool projection (`analyze_function`'s constant loop). -/
def constantEntryOf : LuaValue → ConstantEntry
  | .str s => ⟨.STRING, some s, 0, "0", false⟩
  | .int i => ⟨.INTEGER, none, i, "0", false⟩
  | .flt r => ⟨.FLOAT, none, 0, r, false⟩
  | .boolean b => ⟨.BOOL, none, 0, "0", b⟩
  | .nil => ⟨.NULL, none, 0, "0", false⟩

/-- The freshly pushed `FunctionInfo` before the bytecode scan: identity,
signature, and constant pool filled in; everything else zeroed. -/
def initFunctionInfo (f : Proto) : FunctionInfo :=
  let param_names :=
    (List.range f.numparams).map fun i =>
      match f.locvars.get? i with
      | some (some nm) => nm
      | _ => "(?)"
  { source := f.source.getD "?"
    line_defined := f.linedefined
    last_line := f.lastlinedefined
    param_count := f.numparams
    is_vararg := f.is_vararg
    is_vararg_used := false
    is_method :=
      if 0 < f.numparams then
        match param_names.head? with
        | some p0 => p0 == "self"
        | none => false
      else false
    param_names := param_names
    upvalue_count := f.upvalues.length
    upvalue_names := f.upvalues.map (fun o => o.getD "(?)")
    return_kind := .UNKNOWN
    table_info := ⟨0, 0, 0, false⟩
    had_real_return := false
    closures := []
    constants := f.k.map constantEntryOf
    child_proto_indices := []
    call_sites := []
    reads := [] }

def initScanState (f : Proto) (globals : List GlobalEntry) : ScanState :=
  { fi := initFunctionInfo f
    globals := globals
    pending := []
    last_newtable_pc := -1
    last_newtable_arr := 0
    last_newtable_hsh := 0 }

/-- The whole bytecode scan of `analyze_function` over one proto. -/
def scanCode (f : Proto) (globals : List GlobalEntry) : ScanState :=
  (List.range f.code.length).foldl (step f) (initScanState f globals)

/- -------------------------------------------------------------------------
Function walker (`analyze_function` / `analyze_proto_recursive`).
------------------------------------------------------------------------- -/

/-- In-place update of the `n`-th list element (the walker mutates the
record at a stable index inside the growing functions array). -/
def modifyNth (g : α → α) : Nat → List α → List α
  | _, [] => []
  | 0, x :: xs => g x :: xs
  | n + 1, x :: xs => x :: modifyNth g n xs

/-- `push_child_index` on the record at index `i` of the functions list. -/
def pushChildIndex (fns : List FunctionInfo) (i idx : Nat) : List FunctionInfo :=
  modifyNth (fun fi =>
    { fi with child_proto_indices := fi.child_proto_indices ++ [idx] }) i fns

/-- Post-recursion resolution of pending global→closure links: for each
stashed proto, locate the first record whose declared first line matches
and store its index.  No match leaves the index at -1. -/
def resolvePending (fns : List FunctionInfo) (globals : List GlobalEntry) :
    List (Option Proto) → Nat → List GlobalEntry
  | [], _ => globals
  | entry :: rest, g =>
      let globals' :=
        if g < globals.length then
          match entry with
          | some child =>
              match fns.findIdx? (fun fi => fi.line_defined = child.linedefined) with
              | some kk => modifyNth (fun ge => { ge with function_index := Int.ofNat kk }) g globals
              | none => globals
          | none => globals
        else globals
      resolvePending fns globals' rest (g + 1)

mutual

/-- `analyze_function`: push this proto's record, scan its bytecode, walk
the children (recording their indices in the parent's child list before
each recursive call), then resolve this function's pending globals. -/
def walk : Proto → InterfaceReport → InterfaceReport
  | f@(.mk _ _ _ _ _ _ _ _ _ _ _ children), r =>
      let st := scanCode f r.globals
      let my_index := r.functions.length
      let r1 : InterfaceReport := ⟨r.functions ++ [st.fi], st.globals⟩
      let r2 := walkList children r1 my_index
      ⟨r2.functions, resolvePending r2.functions r2.globals st.pending 0⟩

/-- The child loop of `analyze_function`: each child's index is pushed onto
the parent's child list at the moment of creation, then the child is
walked. -/
def walkList : List Proto → InterfaceReport → Nat → InterfaceReport
  | [], r, _ => r
  | ch :: rest, r, my_index =>
      let child_index := r.functions.length
      let r1 : InterfaceReport := ⟨pushChildIndex r.functions my_index child_index, r.globals⟩
      walkList rest (walk ch r1) my_index

end

/-- `analyze_proto`: the public entry point. -/
def analyze_proto (f : Proto) : InterfaceReport :=
  walk f ⟨[], []⟩

/- -------------------------------------------------------------------------
JSON serialization (`print_report_json` and helpers), producing the output
string.  Field order, indentation and escaping follow the C writers; brace
characters in string literals are written with `\x7b` / `\x7d` escapes.
------------------------------------------------------------------------- -/

def DILUVIUM_LUA_VERSION : String := "5.4.7_rc4"

def hexDigit (n : Nat) : Char :=
  if n < 10 then Char.ofNat (48 + n) else Char.ofNat (87 + n)

/-- One character of RFC 8259 escaping (`json_write_string`'s switch). -/
def json_escape_char (c : Char) : String :=
  if c = '"' then "\\\""
  else if c = '\\' then "\\\\"
  else if c.toNat = 8 then "\\b"
  else if c.toNat = 12 then "\\f"
  else if c.toNat = 10 then "\\n"
  else if c.toNat = 13 then "\\r"
  else if c.toNat = 9 then "\\t"
  else if c.toNat < 32 then
    "\\u00" ++ String.mk [hexDigit (c.toNat / 16), hexDigit (c.toNat % 16)]
  else String.singleton c

/-- `json_write_string`: quoted, escaped JSON string. -/
def json_write_string (s : String) : String :=
  "\"" ++ String.join (s.data.map json_escape_char) ++ "\""

def jsonBool (b : Bool) : String := if b then "true" else "false"

/-- `write_indent`: two spaces per depth level. -/
def write_indent (depth : Nat) : String :=
  String.mk (List.replicate (depth * 2) ' ')

def write_string_array (arr : List String) (depth : Nat) : String :=
  "[\n" ++
    String.join ((arr.mapIdx fun i s =>
      write_indent (depth + 1) ++ json_write_string s ++
      (if i < arr.length - 1 then "," else "") ++ "\n")) ++
  write_indent depth ++ "]"

def write_table_info (ti : TableInfo) (depth : Nat) : String :=
  "\x7b\n" ++
  write_indent (depth + 1) ++ "\"array_size\": " ++ toString ti.array_size ++ ",\n" ++
  write_indent (depth + 1) ++ "\"hash_size\": " ++ toString ti.hash_size ++ ",\n" ++
  write_indent (depth + 1) ++ "\"estimated_bytes\": " ++ toString ti.estimated_bytes ++ ",\n" ++
  write_indent (depth + 1) ++ "\"contains_closures\": " ++ jsonBool ti.contains_closures ++ "\n" ++
  write_indent depth ++ "\x7d"

/-- The per-kind payload of one constant entry (`write_constant_array`'s
switch; fields not selected by the kind are printed as literal zeros). -/
def constant_payload (ce : ConstantEntry) : String :=
  match ce.kind with
  | .STRING =>
      "\"s_val\": " ++ json_write_string (ce.s_val.getD "") ++
      ", \"i_val\": 0, \"f_val\": 0.0, \"b_val\": false"
  | .INTEGER =>
      "\"s_val\": null, \"i_val\": " ++ toString ce.i_val ++
      ", \"f_val\": 0.0, \"b_val\": false"
  | .FLOAT =>
      "\"s_val\": null, \"i_val\": 0, \"f_val\": " ++ ce.f_val ++
      ", \"b_val\": false"
  | .BOOL =>
      "\"s_val\": null, \"i_val\": 0, \"f_val\": 0.0, \"b_val\": " ++ jsonBool ce.b_val
  | .NULL =>
      "\"s_val\": null, \"i_val\": 0, \"f_val\": 0.0, \"b_val\": false"

def write_constant_array (arr : List ConstantEntry) (depth : Nat) : String :=
  "[\n" ++
    String.join ((arr.mapIdx fun i ce =>
      write_indent (depth + 1) ++ "\x7b\"kind\": " ++ toString ce.kind.toNat ++ ", " ++
      constant_payload ce ++ "\x7d" ++
      (if i < arr.length - 1 then "," else "") ++ "\n")) ++
  write_indent depth ++ "]"

def write_int_array (arr : List Nat) (depth : Nat) : String :=
  "[\n" ++
    String.join ((arr.mapIdx fun i v =>
      write_indent (depth + 1) ++ toString v ++
      (if i < arr.length - 1 then "," else "") ++ "\n")) ++
  write_indent depth ++ "]"

def write_closure_array (arr : List ClosureInfo) (depth : Nat) : String :=
  "[\n" ++
    String.join ((arr.mapIdx fun i ci =>
      write_indent (depth + 1) ++ "\x7b\"line_defined\": " ++ toString ci.line_defined ++
      ", \"upvalue_count\": " ++ toString ci.upvalue_count ++ "\x7d" ++
      (if i < arr.length - 1 then "," else "") ++ "\n")) ++
  write_indent depth ++ "]"

def write_call_site_array (arr : List CallSite) (depth : Nat) : String :=
  "[\n" ++
    String.join ((arr.mapIdx fun i cs =>
      write_indent (depth + 1) ++ "\x7b\"line\": " ++ toString cs.line ++
      ", \"kind\": " ++ toString cs.kind.toNat ++
      ", \"callee\": " ++ json_write_string (cs.callee.getD "") ++
      ", \"arg_count\": " ++ toString cs.arg_count ++
      ", \"is_tail\": " ++ jsonBool cs.is_tail ++ "\x7d" ++
      (if i < arr.length - 1 then "," else "") ++ "\n")) ++
  write_indent depth ++ "]"

def write_read_array (arr : List ReadEntry) (depth : Nat) : String :=
  "[\n" ++
    String.join ((arr.mapIdx fun i re =>
      write_indent (depth + 1) ++ "\x7b\"table_name\": " ++ json_write_string re.table_name ++
      ", \"field_name\": " ++ json_write_string re.field_name ++ "\x7d" ++
      (if i < arr.length - 1 then "," else "") ++ "\n")) ++
  write_indent depth ++ "]"

def write_function_info (fi : FunctionInfo) (depth : Nat) : String :=
  write_indent depth ++ "\x7b\n" ++
  write_indent (depth + 1) ++ "\"source\": " ++ json_write_string fi.source ++ ",\n" ++
  write_indent (depth + 1) ++ "\"line_defined\": " ++ toString fi.line_defined ++ ",\n" ++
  write_indent (depth + 1) ++ "\"last_line\": " ++ toString fi.last_line ++ ",\n" ++
  write_indent (depth + 1) ++ "\"param_count\": " ++ toString fi.param_count ++ ",\n" ++
  write_indent (depth + 1) ++ "\"is_vararg\": " ++ jsonBool fi.is_vararg ++ ",\n" ++
  write_indent (depth + 1) ++ "\"is_method\": " ++ jsonBool fi.is_method ++ ",\n" ++
  write_indent (depth + 1) ++ "\"param_names\": " ++
    (if 0 < fi.param_count then write_string_array fi.param_names (depth + 1) else "[]") ++ ",\n" ++
  write_indent (depth + 1) ++ "\"upvalue_names\": " ++
    (if 0 < fi.upvalue_count then write_string_array fi.upvalue_names (depth + 1) else "[]") ++ ",\n" ++
  write_indent (depth + 1) ++ "\"return_kind\": " ++ toString fi.return_kind.toNat ++ ",\n" ++
  write_indent (depth + 1) ++ "\"table_info\": " ++ write_table_info fi.table_info (depth + 1) ++ ",\n" ++
  write_indent (depth + 1) ++ "\"is_vararg_used\": " ++ jsonBool fi.is_vararg_used ++ ",\n" ++
  write_indent (depth + 1) ++ "\"closures\": " ++ write_closure_array fi.closures (depth + 1) ++ ",\n" ++
  write_indent (depth + 1) ++ "\"constants\": " ++ write_constant_array fi.constants (depth + 1) ++ ",\n" ++
  write_indent (depth + 1) ++ "\"child_proto_indices\": " ++ write_int_array fi.child_proto_indices (depth + 1) ++ ",\n" ++
  write_indent (depth + 1) ++ "\"call_sites\": " ++ write_call_site_array fi.call_sites (depth + 1) ++ ",\n" ++
  write_indent (depth + 1) ++ "\"reads\": " ++ write_read_array fi.reads (depth + 1) ++ "\n" ++
  write_indent depth ++ "\x7d"

/-- `print_report_json`: the full, schema-fixed JSON document. -/
def print_report_json (report : InterfaceReport) : String :=
  "\x7b\n" ++
  "  \"lua_version\": \"" ++ DILUVIUM_LUA_VERSION ++ "\",\n" ++
  "  \"functions\": [\n" ++
  String.join ((report.functions.mapIdx fun i fi =>
    write_function_info fi 2 ++
    (if i < report.functions.length - 1 then "," else "") ++ "\n")) ++
  "  ],\n" ++
  "  \"globals\": [\n" ++
  String.join ((report.globals.mapIdx fun i g =>
    "    \x7b\"name\": " ++ json_write_string g.name ++
    ", \"is_function\": " ++ jsonBool g.is_function ++
    ", \"function_index\": " ++ toString g.function_index ++ "\x7d" ++
    (if i < report.globals.length - 1 then "," else "") ++ "\n")) ++
  "  ]\n" ++
  "\x7d\n"

/-- `report_to_json_string`: identical rendering, returned as a string. -/
def report_to_json_string (report : InterfaceReport) : String :=
  print_report_json report

/- -------------------------------------------------------------------------
Theorems.  First: properties of the two backward register scans.
------------------------------------------------------------------------- -/

/-- A nonnegative result of `fnt_go` is the index of a `NEWTABLE` targeting
`reg`, at or before the starting index. -/
theorem fnt_go_sound (f : Proto) (reg : Nat) :
    ∀ (n i j : Nat), fnt_go f reg i n = (j : Int) →
      j ≤ i ∧ (fetch f j).op = .NEWTABLE ∧ (fetch f j).a = reg := by
  intro n
  induction n with
  | zero =>
      intro i j h
      simp only [fnt_go] at h
      omega
  | succ n ih =>
      intro i j h
      simp only [fnt_go] at h
      by_cases h1 : (fetch f i).op = .NEWTABLE ∧ (fetch f i).a = reg
      · rw [if_pos h1] at h
        have hij : j = i := by exact_mod_cast h.symm
        subst hij
        exact ⟨Nat.le_refl _, h1.1, h1.2⟩
      · rw [if_neg h1] at h
        by_cases h2 : ((fetch f i).op = .SETFIELD ∨ (fetch f i).op = .SETTABLE ∨
            (fetch f i).op = .SETI ∨ (fetch f i).op = .SETLIST) ∧ (fetch f i).a = reg
        · rw [if_pos h2] at h
          have := ih (i - 1) j h
          exact ⟨by omega, this.2.1, this.2.2⟩
        · rw [if_neg h2] at h
          by_cases h3 : fnt_writes (fetch f i).op = true ∧ (fetch f i).a = reg
          · rw [if_pos h3] at h
            exfalso
            omega
          · rw [if_neg h3] at h
            have := ih (i - 1) j h
            exact ⟨by omega, this.2.1, this.2.2⟩

/-- If no `NEWTABLE` targeting `reg` occurs at any index `≤ i`, the scan
reports not-found. -/
theorem fnt_go_exhaust (f : Proto) (reg : Nat) :
    ∀ n i, (∀ j, j ≤ i → ¬((fetch f j).op = .NEWTABLE ∧ (fetch f j).a = reg)) →
      fnt_go f reg i n = -1 := by
  intro n
  induction n with
  | zero => intro i _; simp only [fnt_go]
  | succ n ih =>
      intro i hno
      simp only [fnt_go]
      split_ifs with h1 h2 h3
      · exact absurd h1 (hno i (Nat.le_refl _))
      · exact ih (i - 1) (fun j hj => hno j (by omega))
      · rfl
      · exact ih (i - 1) (fun j hj => hno j (by omega))

/-- If a `NEWTABLE` targeting `reg` sits within the scanned range and no
writer to `reg` occurs after it (table stores excepted, as they are not in
the writer list), the scan succeeds. -/
theorem fnt_go_complete (f : Proto) (reg : Nat) :
    ∀ n i, (∃ t, t ≤ i ∧ i < t + n ∧
        (fetch f t).op = .NEWTABLE ∧ (fetch f t).a = reg ∧
        (∀ j, t < j → j ≤ i → ¬(fnt_writes (fetch f j).op = true ∧ (fetch f j).a = reg))) →
      0 ≤ fnt_go f reg i n := by
  intro n
  induction n with
  | zero =>
      intro i ⟨t, ht1, ht2, _⟩
      omega
  | succ n ih =>
      intro i ⟨t, ht1, ht2, hnt, hreg, hclean⟩
      simp only [fnt_go]
      split_ifs with h1 h2 h3
      · omega
      · -- a tolerated table store at i; it cannot be the NEWTABLE site
        have hti : t ≠ i := by
          intro he; subst he
          rcases h2.1 with h | h | h | h <;> simp [h] at hnt
        refine ih (i - 1) ⟨t, by omega, by omega, hnt, hreg, ?_⟩
        intro j hj1 hj2
        exact hclean j hj1 (by omega)
      · -- a stopping writer at i; excluded by hclean unless t = i,
        -- and t = i is the NEWTABLE case already handled by h1
        have hti : t ≠ i := by
          intro he; subst he; exact h1 ⟨hnt, hreg⟩
        exact absurd h3 (hclean i (by omega) (Nat.le_refl _))
      · have hti : t ≠ i := by
          intro he; subst he; exact h1 ⟨hnt, hreg⟩
        refine ih (i - 1) ⟨t, by omega, by omega, hnt, hreg, ?_⟩
        intro j hj1 hj2
        exact hclean j hj1 (by omega)

/-- C10 helper: `find_newtable_for_reg` in terms of `fnt_go`. -/
theorem find_newtable_sound (f : Proto) (pc reg : Nat)
    (h : 0 ≤ find_newtable_for_reg f pc reg) :
    (find_newtable_for_reg f pc reg).toNat < pc ∧
    (fetch f (find_newtable_for_reg f pc reg).toNat).op = .NEWTABLE ∧
    (fetch f (find_newtable_for_reg f pc reg).toNat).a = reg := by
  have hj : find_newtable_for_reg f pc reg =
      ((find_newtable_for_reg f pc reg).toNat : Int) := by
    omega
  have hs := fnt_go_sound f reg pc (pc - 1) (find_newtable_for_reg f pc reg).toNat hj
  rcases Nat.eq_zero_or_pos pc with hpc | hpc
  · subst hpc
    simp only [find_newtable_for_reg, fnt_go] at h
    omega
  · exact ⟨by omega, hs.2.1, hs.2.2⟩

/-- C10: a non-negative result of the table-origin backward scan is the
index of an instruction strictly before the reference `pc`, and that
instruction is an `OP_NEWTABLE` whose destination register `A` is exactly
the traced register — so any `TableShape` derived from it comes from a
genuine table-construction site for the returned register. -/
theorem c10_newtable_scan_sound (f : Proto) (pc reg j : Nat)
    (h : find_newtable_for_reg f pc reg = (j : Int)) :
    j < pc ∧ (fetch f j).op = .NEWTABLE ∧ (fetch f j).a = reg := by
  have h0 : 0 ≤ find_newtable_for_reg f pc reg := by rw [h]; omega
  have := find_newtable_sound f pc reg h0
  have hj : (find_newtable_for_reg f pc reg).toNat = j := by
    rw [h]; exact Int.toNat_natCast j
  rw [hj] at this
  exact this

def insOf (op : OpCode) (a : Nat) : Instruction := ⟨op, a, 0, 0, false, 0, 0⟩

/-- A three-instruction prototype: construct a table in register 0, store a
field into it, return it. -/
def tableRetProto : Proto :=
  .mk none 0 0 0 false
    [⟨.NEWTABLE, 0, 1, 3, false, 0, 0⟩, insOf .SETFIELD 0, insOf .RETURN1 0]
    [] [] [] [] none []

/-- Witness for C10 at a concrete input. -/
theorem c10_newtable_scan_sound_witness :
    0 < 2 ∧ (fetch tableRetProto 0).op = .NEWTABLE ∧ (fetch tableRetProto 0).a = 0 :=
  c10_newtable_scan_sound tableRetProto 2 0 0 (by decide)

/- -------------------------------------------------------------------------
C1: window behaviour of the two scans.
------------------------------------------------------------------------- -/

/-- `frs_go` only examines the indices `[i+1-n, i]`: two protos agreeing
there give the same answer. -/
theorem frs_go_frame (f g : Proto) (reg : Nat) :
    ∀ n i, (∀ t, i + 1 - n ≤ t → t ≤ i → fetch f t = fetch g t) →
      frs_go f reg i n = frs_go g reg i n := by
  intro n
  induction n with
  | zero => intro i _; rfl
  | succ n ih =>
      intro i hagree
      have hfi : fetch f i = fetch g i := hagree i (by omega) (Nat.le_refl _)
      simp only [frs_go, hfi]
      by_cases h1 : (fetch g i).op = .CLOSURE ∧ (fetch g i).a = reg
      · rw [if_pos h1, if_pos h1]
      · rw [if_neg h1, if_neg h1]
        by_cases h2 : frs_writes (fetch g i).op = true ∧ (fetch g i).a = reg
        · rw [if_pos h2, if_pos h2]
        · rw [if_neg h2, if_neg h2]
          exact ih (i - 1) (fun t ht1 ht2 => hagree t (by omega) (by omega))

/-- If nothing in the scanned range is a closure construction or writer for
`reg`, `frs_go` reports indeterminate. -/
theorem frs_go_exhaust (f : Proto) (reg : Nat) :
    ∀ n i, (∀ t, i + 1 - n ≤ t → t ≤ i →
        ¬((fetch f t).op = .CLOSURE ∧ (fetch f t).a = reg) ∧
        ¬(frs_writes (fetch f t).op = true ∧ (fetch f t).a = reg)) →
      frs_go f reg i n = -1 := by
  intro n
  induction n with
  | zero => intro i _; rfl
  | succ n ih =>
      intro i hsafe
      have hi := hsafe i (by omega) (Nat.le_refl _)
      simp only [frs_go, if_neg hi.1, if_neg hi.2]
      exact ih (i - 1) (fun t ht1 ht2 => hsafe t (by omega) (by omega))

/-- C1 (amended): the closure-origin scan `find_reg_source` examines only
the fixed 16-instruction window strictly before the reference `pc` (its
answer is unchanged under any modification outside that window) and yields
indeterminate (−1), never a positive classification, when the window holds
no writer for the register.  The table-origin scan
`find_newtable_for_reg`, by contrast, has no fixed window — it walks all
the way back to instruction 0 — but exhausting the program without finding
a table-construction writer also yields not-found (−1), never a positive
classification. -/
theorem c1_scan_windows :
    (∀ (f g : Proto) (pc reg : Nat),
        (∀ t, t < pc → pc - 16 ≤ t → fetch f t = fetch g t) →
        find_reg_source f pc reg = find_reg_source g pc reg) ∧
    (∀ (f : Proto) (pc reg : Nat),
        (∀ t, t < pc → pc - 16 ≤ t →
            ¬((fetch f t).op = .CLOSURE ∧ (fetch f t).a = reg) ∧
            ¬(frs_writes (fetch f t).op = true ∧ (fetch f t).a = reg)) →
        find_reg_source f pc reg = -1) ∧
    (∀ (f : Proto) (pc reg : Nat),
        (∀ j, j < pc → ¬((fetch f j).op = .NEWTABLE ∧ (fetch f j).a = reg)) →
        find_newtable_for_reg f pc reg = -1) := by
  refine ⟨?_, ?_, ?_⟩
  · intro f g pc reg hwin
    apply frs_go_frame
    intro t ht1 ht2
    exact hwin t (by omega) (by omega)
  · intro f pc reg hwin
    apply frs_go_exhaust
    intro t ht1 ht2
    exact hwin t (by omega) (by omega)
  · intro f pc reg hno
    rcases Nat.eq_zero_or_pos pc with hpc | hpc
    · subst hpc; rfl
    · apply fnt_go_exhaust
      intro j hj
      exact hno j (by omega)

def c1_padding : List Instruction := List.replicate 39 (insOf .JMP 0)

/-- A table constructed 40 instructions before the returning instruction. -/
def c1_protoA : Proto :=
  .mk none 0 0 0 false
    (insOf .NEWTABLE 0 :: c1_padding ++ [insOf .RETURN1 0]) [] [] [] [] none []

/-- Same program with the table construction replaced by a plain writer. -/
def c1_protoB : Proto :=
  .mk none 0 0 0 false
    (insOf .LOADNIL 0 :: c1_padding ++ [insOf .RETURN1 0]) [] [] [] [] none []

/-- Counterexample to C1 as stated: the table-origin scan is *not* bounded
by a fixed window.  From `pc = 40` it reaches instruction 0, forty
instructions back: the two programs agree on every instruction within the
largest window constant appearing in the analyzer (32), yet the scan
returns the positive classification 0 on one and −1 on the other, and the
positive answer exceeds every window constant used in the code (16/24/32). -/
theorem c1_counterexample :
    (∀ t, t < 40 → 40 - 32 ≤ t → fetch c1_protoA t = fetch c1_protoB t) ∧
    find_newtable_for_reg c1_protoA 40 0 = (0 : Int) ∧
    find_newtable_for_reg c1_protoB 40 0 = -1 ∧ 32 < 40 - 0 := by
  refine ⟨?_, by decide, by decide, by decide⟩
  decide

/-- A prototype whose only writer to register 0 (a `CLOSURE`) sits 17
instructions before the reference `pc`, just outside `find_reg_source`'s
16-instruction window. -/
def c1_frsProto : Proto :=
  .mk none 0 0 0 false
    (insOf .CLOSURE 0 :: List.replicate 16 (insOf .JMP 0) ++ [insOf .RETURN0 0])
    [] [] [] [] none []

/-- Witness for C1's amended theorem at concrete inputs: the closure scan
exhausts its window (result −1), and the table scan exhausts a program with
no table constructor (result −1). -/
theorem c1_scan_windows_witness :
    find_reg_source c1_frsProto 17 0 = -1 ∧
    find_newtable_for_reg c1_protoB 40 0 = -1 :=
  ⟨c1_scan_windows.2.1 c1_frsProto 17 0 (by decide),
   c1_scan_windows.2.2 c1_protoB 40 0 (by decide)⟩

/-- C5: table-size decoding is total and never signals an error.  The hash
field decodes to 0 when raw 0, else to the power of two `2^(b-1)`; the
array size is the raw low field when the `k` flag is clear, the
concatenation `Ax * 256 + C` when an `EXTRAARG` continuation is present at
`pc+1` (the `C` field is 8 bits wide), and falls back to the raw low field
when the flag is set but no continuation is found. -/
theorem c5_table_size_decoding :
    (decode_hash_size 0 = 0) ∧
    (∀ b : Nat, b ≠ 0 → decode_hash_size b = 2 ^ (b - 1)) ∧
    (∀ (f : Proto) (pc : Nat), (fetch f pc).k = false →
        decode_array_size f pc = (fetch f pc).c) ∧
    (∀ (f : Proto) (pc : Nat) (e : Instruction), (fetch f pc).k = true →
        f.code.get? (pc + 1) = some e → e.op = .EXTRAARG → (fetch f pc).c < 256 →
        decode_array_size f pc = e.ax * 256 + (fetch f pc).c) ∧
    (∀ (f : Proto) (pc : Nat), (fetch f pc).k = true →
        (∀ e, f.code.get? (pc + 1) = some e → e.op ≠ .EXTRAARG) →
        decode_array_size f pc = (fetch f pc).c) := by
  refine ⟨rfl, ?_, ?_, ?_, ?_⟩
  · intro b hb
    simp only [decode_hash_size, if_neg hb, Nat.shiftLeft_eq, one_mul]
  · intro f pc hk
    simp [decode_array_size, hk]
  · intro f pc e hk he hop hc
    simp only [decode_array_size, hk, he, hop]
    have hor : e.ax <<< 8 ||| (fetch f pc).c = e.ax * 256 + (fetch f pc).c := by
      have hsl : e.ax <<< 8 = 2 ^ 8 * e.ax := by
        rw [Nat.shiftLeft_eq]; ring
      rw [hsl, ← Nat.mul_add_lt_is_or (by omega : (fetch f pc).c < 2 ^ 8) e.ax]
      ring
    simp [hor]
  · intro f pc hk hnone
    simp only [decode_array_size, hk]
    cases hcode : f.code.get? (pc + 1) with
    | none => simp
    | some e => simp [hcode, hnone e hcode]

/-- A `NEWTABLE` with the `k` flag set followed by its `EXTRAARG`
continuation (low field 200, high bits 5). -/
def extProto : Proto :=
  .mk none 0 0 0 false
    [⟨.NEWTABLE, 0, 0, 200, true, 0, 0⟩, ⟨.EXTRAARG, 0, 0, 0, false, 0, 5⟩]
    [] [] [] [] none []

/-- A `NEWTABLE` with the `k` flag set but no continuation at `pc+1`. -/
def extProtoBad : Proto :=
  .mk none 0 0 0 false
    [⟨.NEWTABLE, 0, 0, 200, true, 0, 0⟩, insOf .JMP 0]
    [] [] [] [] none []

/-- Witness for C5's conditional conjuncts at concrete inputs. -/
theorem c5_table_size_decoding_witness :
    decode_hash_size 3 = 2 ^ 2 ∧
    decode_array_size tableRetProto 0 = 3 ∧
    decode_array_size extProto 0 = 5 * 256 + 200 ∧
    decode_array_size extProtoBad 0 = 200 :=
  ⟨c5_table_size_decoding.2.1 3 (by decide),
   c5_table_size_decoding.2.2.1 tableRetProto 0 (by decide),
   c5_table_size_decoding.2.2.2.1 extProto 0 ⟨.EXTRAARG, 0, 0, 0, false, 0, 5⟩
     (by decide) (by decide) (by decide) (by decide),
   c5_table_size_decoding.2.2.2.2 extProtoBad 0 (by decide)
     (fun e he => by
        have h1 : extProtoBad.code.get? 1 = some (insOf .JMP 0) := by decide
        rw [h1] at he
        cases he
        decide)⟩

/- -------------------------------------------------------------------------
C2: the per-function merge of return-site classifications.
------------------------------------------------------------------------- -/

/-- UNKNOWN and VOID are the weak classifications. -/
def weakKind (k : ReturnKind) : Prop := k = .UNKNOWN ∨ k = .VOID

/-- The strong (real) per-site classifications; `classify_return` never
produces MIXED, which only arises from merging. -/
def strongKind (k : ReturnKind) : Prop :=
  k = .TABLE ∨ k = .CALL ∨ k = .UPVALUE ∨ k = .CONSTANT ∨ k = .MULTI

instance : DecidablePred weakKind := fun k => by unfold weakKind; infer_instance

instance : DecidablePred strongKind := fun k => by unfold strongKind; infer_instance

theorem merge_mixed_absorb :
    ∀ (s : ReturnKind × Bool) (k : ReturnKind),
      s.1 = .MIXED → (mergeReturnKind s k).1 = .MIXED := by decide

theorem merge_weak_strongish :
    ∀ (s : ReturnKind × Bool) (k : ReturnKind),
      weakKind s.1 → ¬weakKind k → (mergeReturnKind s k).1 = k := by decide

theorem merge_same_strong :
    ∀ (s : ReturnKind × Bool) (k : ReturnKind),
      ¬weakKind s.1 → s.1 ≠ .MIXED → k = s.1 → (mergeReturnKind s k).1 = s.1 := by decide

theorem merge_two_strong :
    ∀ (s : ReturnKind × Bool) (k : ReturnKind),
      ¬weakKind s.1 → s.1 ≠ .MIXED → ¬weakKind k → k ≠ s.1 →
      (mergeReturnKind s k).1 = .MIXED := by decide

theorem merge_strong_keeps :
    ∀ (s : ReturnKind × Bool) (k : ReturnKind),
      ¬weakKind s.1 → s.1 ≠ .MIXED → weakKind k → (mergeReturnKind s k).1 = s.1 := by decide

/-- Once MIXED, the merged verdict stays MIXED. -/
theorem merge_fold_mixed (ks : List ReturnKind) :
    ∀ s : ReturnKind × Bool, s.1 = .MIXED →
      (ks.foldl mergeReturnKind s).1 = .MIXED := by
  induction ks with
  | nil => intro s h; exact h
  | cons k ks ih =>
      intro s h
      simp only [List.foldl_cons]
      exact ih _ (merge_mixed_absorb s k h)

/-- If the merged verdict is not MIXED, every non-weak site classification
equals it, and a non-weak starting verdict survives unchanged. -/
theorem merge_fold_agree (ks : List ReturnKind) :
    ∀ s : ReturnKind × Bool, (ks.foldl mergeReturnKind s).1 ≠ .MIXED →
      (∀ k ∈ ks, ¬weakKind k → k = (ks.foldl mergeReturnKind s).1) ∧
      (¬weakKind s.1 → s.1 = (ks.foldl mergeReturnKind s).1) := by
  induction ks with
  | nil =>
      intro s _
      constructor
      · intro k hk
        cases hk
      · intro _
        rfl
  | cons k ks ih =>
      intro s hres
      simp only [List.foldl_cons] at hres ⊢
      obtain ⟨A1, A2⟩ := ih (mergeReturnKind s k) hres
      have hsnotmix : s.1 ≠ .MIXED := by
        intro hmix
        exact hres (merge_fold_mixed ks _ (merge_mixed_absorb s k hmix))
      constructor
      · intro k' hk' hnw
        rcases List.mem_cons.mp hk' with rfl | hmem
        · by_cases hws : weakKind s.1
          · have hk : (mergeReturnKind s k').1 = k' := merge_weak_strongish s k' hws hnw
            have := A2 (by rw [hk]; exact hnw)
            rw [hk] at this
            exact this
          · by_cases heq : k' = s.1
            · have hk : (mergeReturnKind s k').1 = s.1 := merge_same_strong s k' hws hsnotmix heq
              have := A2 (by rw [hk]; exact hws)
              rw [hk] at this
              exact heq.trans this
            · exact absurd (merge_fold_mixed ks _ (merge_two_strong s k' hws hsnotmix hnw heq)) hres
        · exact A1 k' hmem hnw
      · intro hnws
        by_cases hwk : weakKind k
        · have hk : (mergeReturnKind s k).1 = s.1 := merge_strong_keeps s k hnws hsnotmix hwk
          have := A2 (by rw [hk]; exact hnws)
          rw [hk] at this
          exact this
        · by_cases heq : k = s.1
          · have hk : (mergeReturnKind s k).1 = s.1 := merge_same_strong s k hnws hsnotmix heq
            have := A2 (by rw [hk]; exact hnws)
            rw [hk] at this
            exact this
          · exact absurd (merge_fold_mixed ks _ (merge_two_strong s k hnws hsnotmix hwk heq)) hres

/-- C2: the merge of per-return-site classifications obeys the three spec
rules.  (a) a weak current verdict (unknown/void) is overwritten by any
strong classification (table/call/upvalue/constant/multi); (b) two
different strong classifications anywhere among the sites force the merged
verdict to MIXED; (c) a void site never overwrites an already-recorded
strong verdict. -/
theorem c2_return_merge :
    (∀ (rk : ReturnKind) (had : Bool) (k : ReturnKind),
        weakKind rk → strongKind k → (mergeReturnKind (rk, had) k).1 = k) ∧
    (∀ (ks : List ReturnKind) (k1 k2 : ReturnKind),
        k1 ∈ ks → k2 ∈ ks → strongKind k1 → strongKind k2 → k1 ≠ k2 →
        (ks.foldl mergeReturnKind (.UNKNOWN, false)).1 = .MIXED) ∧
    (∀ (rk : ReturnKind) (had : Bool),
        strongKind rk → (mergeReturnKind (rk, had) .VOID).1 = rk) := by
  have hsw : ∀ k, strongKind k → ¬weakKind k := by decide
  refine ⟨?_, ?_, ?_⟩
  · intro rk had k hw hs
    exact merge_weak_strongish (rk, had) k hw (hsw k hs)
  · intro ks k1 k2 h1 h2 hs1 hs2 hne
    by_contra hres
    obtain ⟨A1, _⟩ := merge_fold_agree ks (.UNKNOWN, false) hres
    have e1 := A1 k1 h1 (hsw k1 hs1)
    have e2 := A1 k2 h2 (hsw k2 hs2)
    exact hne (e1.trans e2.symm)
  · intro rk had hs
    exact merge_strong_keeps (rk, had) .VOID (hsw rk hs) (by rintro rfl; cases hs <;> simp_all [strongKind]) (Or.inr rfl)

/-- Witness for C2 at concrete inputs. -/
theorem c2_return_merge_witness :
    (mergeReturnKind (.UNKNOWN, false) .TABLE).1 = .TABLE ∧
    ([ReturnKind.TABLE, ReturnKind.CALL].foldl mergeReturnKind (.UNKNOWN, false)).1 = .MIXED ∧
    (mergeReturnKind (.TABLE, true) .VOID).1 = .TABLE :=
  ⟨c2_return_merge.1 .UNKNOWN false .TABLE (by decide) (by decide),
   c2_return_merge.2.1 [.TABLE, .CALL] .TABLE .CALL (by decide) (by decide)
     (by decide) (by decide) (by decide),
   c2_return_merge.2.2 .TABLE true (by decide)⟩

/- -------------------------------------------------------------------------
C6: global-environment write deduplication.
------------------------------------------------------------------------- -/

/-- Number of entries carrying name `n`. -/
def countName (n : String) (gs : List GlobalEntry) : Nat :=
  gs.countP (fun g => decide (g.name = n))

/-- One global-environment write as `analyze_function` performs it: the
`OP_SETTABUP` case always calls `upsert_global` with `function_index = -1`
(resolution happens only after recursion). -/
def applyWrite (gs : List GlobalEntry) (w : String × Bool) : List GlobalEntry :=
  upsert_global gs w.1 w.2 (-1)

theorem upsert_count_found (n m : String) (fn : Bool) (x : Int) :
    ∀ gs : List GlobalEntry, (∃ g ∈ gs, g.name = m) →
      countName n (upsert_global gs m fn x) = countName n gs := by
  intro gs
  induction gs with
  | nil => rintro ⟨g, hg, _⟩; cases hg
  | cons g rest ih =>
      rintro ⟨w, hw, hwm⟩
      by_cases hg : g.name = m
      · simp only [upsert_global, if_pos hg, countName, List.countP_cons]
      · simp only [upsert_global, if_neg hg, countName, List.countP_cons]
        rcases List.mem_cons.mp hw with rfl | hmem
        · exact absurd hwm hg
        · have := ih ⟨w, hmem, hwm⟩
          simp only [countName] at this
          rw [this]

theorem upsert_not_found (m : String) (fn : Bool) (x : Int) :
    ∀ gs : List GlobalEntry, (∀ g ∈ gs, g.name ≠ m) →
      upsert_global gs m fn x = gs ++ [⟨m, fn, x⟩] := by
  intro gs
  induction gs with
  | nil => intro _; rfl
  | cons g rest ih =>
      intro hall
      simp only [upsert_global, if_neg (hall g (List.mem_cons_self g rest))]
      rw [ih (fun g' hg' => hall g' (List.mem_cons_of_mem g hg'))]
      rfl

theorem upsert_count_le (n m : String) (fn : Bool) (x : Int)
    (gs : List GlobalEntry) (h : countName n gs ≤ 1) :
    countName n (upsert_global gs m fn x) ≤ 1 := by
  by_cases hex : ∃ g ∈ gs, g.name = m
  · rw [upsert_count_found n m fn x gs hex]; exact h
  · push_neg at hex
    rw [upsert_not_found m fn x gs hex]
    simp only [countName, List.countP_append]
    by_cases hmn : m = n
    · subst hmn
      have hz : countName m gs = 0 := by
        simp only [countName, List.countP_eq_zero]
        intro g hg
        simpa using hex g hg
      simp only [countName] at hz
      simp [hz, List.countP_cons]
    · simp only [List.countP_cons, List.countP_nil]
      simp only [countName] at h
      simpa [hmn] using h

/-- Every element of an upsert result either descends from an original
entry (same name, `is_function` only ever promoted) or is the freshly
appended entry — and a fresh append only happens when no entry matched. -/
theorem upsert_mem (m : String) (fn : Bool) (x : Int) :
    ∀ (gs : List GlobalEntry) (g' : GlobalEntry), g' ∈ upsert_global gs m fn x →
      (∃ g ∈ gs, g'.name = g.name ∧ (g.is_function = true → g'.is_function = true)) ∨
      (g' = ⟨m, fn, x⟩ ∧ ∀ g ∈ gs, g.name ≠ m) := by
  intro gs
  induction gs with
  | nil =>
      intro g' hg'
      right
      refine ⟨?_, by intro g hg; cases hg⟩
      simpa [upsert_global] using hg'
  | cons g rest ih =>
      intro g' hg'
      by_cases hg : g.name = m
      · simp only [upsert_global, if_pos hg] at hg'
        rcases List.mem_cons.mp hg' with rfl | hmem
        · left
          exact ⟨g, List.mem_cons_self g rest, rfl, by intro hh; simp [hh]⟩
        · left
          exact ⟨g', List.mem_cons_of_mem g hmem, rfl, fun h => h⟩
      · simp only [upsert_global, if_neg hg] at hg'
        rcases List.mem_cons.mp hg' with rfl | hmem
        · left
          exact ⟨g', List.mem_cons_self _ rest, rfl, fun h => h⟩
        · rcases ih g' hmem with ⟨g0, hg0, hname, hmono⟩ | ⟨heq, hnone⟩
          · exact Or.inl ⟨g0, List.mem_cons_of_mem g hg0, hname, hmono⟩
          · right
            refine ⟨heq, ?_⟩
            intro g0 hg0
            rcases List.mem_cons.mp hg0 with rfl | hg0m
            · exact hg
            · exact hnone g0 hg0m

/-- The invariant "an entry named `n` exists and every entry named `n` has
`is_function = true`". -/
def allTrueInv (n : String) (gs : List GlobalEntry) : Prop :=
  (∃ g ∈ gs, g.name = n) ∧ ∀ g ∈ gs, g.name = n → g.is_function = true

theorem upsert_preserves_inv (n m : String) (fn : Bool) :
    ∀ gs : List GlobalEntry, allTrueInv n gs →
      allTrueInv n (upsert_global gs m fn (-1)) := by
  intro gs
  induction gs with
  | nil => rintro ⟨⟨g, hg, _⟩, _⟩; cases hg
  | cons g rest ih =>
      rintro ⟨⟨w, hw, hwn⟩, hall⟩
      by_cases hg : g.name = m
      · simp only [upsert_global, if_pos hg]
        constructor
        · rcases List.mem_cons.mp hw with rfl | hmem
          · exact ⟨_, List.mem_cons_self _ rest, hwn⟩
          · exact ⟨w, List.mem_cons_of_mem _ hmem, hwn⟩
        · intro g' hg' hg'n
          rcases List.mem_cons.mp hg' with rfl | hmem
          · have := hall g (List.mem_cons_self g rest) hg'n
            simp [this]
          · exact hall g' (List.mem_cons_of_mem g hmem) hg'n
      · simp only [upsert_global, if_neg hg]
        rcases List.mem_cons.mp hw with rfl | hmem
        · -- the named entry is the head, which is kept unchanged
          constructor
          · exact ⟨w, List.mem_cons_self _ _, hwn⟩
          · intro g' hg' hg'n
            rcases List.mem_cons.mp hg' with rfl | hmem'
            · exact hall g' (List.mem_cons_self _ rest) hg'n
            · rcases upsert_mem m fn (-1) rest g' hmem' with ⟨g0, hg0, hname, hmono⟩ | ⟨heq, _⟩
              · exact hmono (hall g0 (List.mem_cons_of_mem _ hg0) (hname ▸ hg'n))
              · exfalso
                apply hg
                rw [hwn]
                have : g'.name = m := by rw [heq]
                rw [← hg'n, this]
        · -- the named entry lives in the tail: recurse
          have hinv : allTrueInv n rest :=
            ⟨⟨w, hmem, hwn⟩, fun g' hg' => hall g' (List.mem_cons_of_mem g hg')⟩
          obtain ⟨⟨w', hw', hw'n⟩, hall'⟩ := ih hinv
          constructor
          · exact ⟨w', List.mem_cons_of_mem g hw', hw'n⟩
          · intro g' hg' hg'n
            rcases List.mem_cons.mp hg' with rfl | hmem'
            · exact hall g' (List.mem_cons_self _ rest) hg'n
            · exact hall' g' hmem' hg'n

/-- Upserting `(n, true)` into a duplicate-free list makes every entry
named `n` carry `is_function = true`. -/
theorem upsert_true_all (n : String) :
    ∀ gs : List GlobalEntry, countName n gs ≤ 1 →
      ∀ g' ∈ upsert_global gs n true (-1), g'.name = n → g'.is_function = true := by
  intro gs
  induction gs with
  | nil =>
      intro _ g' hg' _
      simp only [upsert_global, List.mem_singleton] at hg'
      rw [hg']
  | cons g rest ih =>
      intro hcnt g' hg' hg'n
      by_cases hg : g.name = n
      · simp only [upsert_global, if_pos hg] at hg'
        rcases List.mem_cons.mp hg' with rfl | hmem
        · simp
        · -- no second entry named n can exist in rest
          exfalso
          have h1 : countName n (g :: rest) = 1 + countName n rest := by
            simp [countName, List.countP_cons, hg, Nat.add_comm]
          have hz : countName n rest = 0 := by omega
          have := (List.countP_eq_zero).mp hz g' hmem
          simp [hg'n] at this
      · simp only [upsert_global, if_neg hg] at hg'
        rcases List.mem_cons.mp hg' with rfl | hmem
        · exact absurd hg'n hg
        · have hle : countName n rest ≤ 1 := by
            have : countName n (g :: rest) = countName n rest := by
              simp [countName, List.countP_cons, hg]
            omega
          exact ih hle g' hmem hg'n

/-- Upserting `(n, true)` establishes the invariant (on a duplicate-free
list). -/
theorem upsert_establish (n : String) (gs : List GlobalEntry)
    (hcnt : countName n gs ≤ 1) :
    allTrueInv n (upsert_global gs n true (-1)) := by
  constructor
  · by_cases hex : ∃ g ∈ gs, g.name = n
    · have hpos : 0 < countName n (upsert_global gs n true (-1)) := by
        rw [upsert_count_found n n true (-1) gs hex]
        simp only [countName, List.countP_pos]
        obtain ⟨g, hg, hgn⟩ := hex
        exact ⟨g, hg, by simp [hgn]⟩
      simp only [countName, List.countP_pos] at hpos
      obtain ⟨g, hg, hgn⟩ := hpos
      exact ⟨g, hg, by simpa using hgn⟩
    · push_neg at hex
      rw [upsert_not_found n true (-1) gs hex]
      exact ⟨⟨n, true, -1⟩, List.mem_append_right _ (List.mem_singleton.mpr rfl), rfl⟩
  · exact upsert_true_all n gs hcnt

/-- Writes preserve the duplicate-freedom bound over a fold. -/
theorem fold_count_le (n : String) :
    ∀ (ws : List (String × Bool)) (gs : List GlobalEntry),
      countName n gs ≤ 1 → countName n (ws.foldl applyWrite gs) ≤ 1 := by
  intro ws
  induction ws with
  | nil => intro gs h; exact h
  | cons w ws ih =>
      intro gs h
      simp only [List.foldl_cons]
      exact ih _ (upsert_count_le n w.1 w.2 (-1) gs h)

theorem fold_preserves_inv (n : String) :
    ∀ (ws : List (String × Bool)) (gs : List GlobalEntry),
      allTrueInv n gs → allTrueInv n (ws.foldl applyWrite gs) := by
  intro ws
  induction ws with
  | nil => intro gs h; exact h
  | cons w ws ih =>
      intro gs h
      simp only [List.foldl_cons]
      exact ih _ (upsert_preserves_inv n w.1 w.2 gs h)

/-- C6: global-environment writes are deduplicated by name.  A write
sequence containing both a non-closure and a closure assignment to the
same name (in either order) produces exactly one entry for that name, with
`is_function = true`; and since every write reaches `upsert_global` with
`function_index = -1`, a write never changes any stored function index
(the second conjunct: the entry at each position keeps its name and its
resolved index across any later write). -/
theorem c6_global_dedup :
    (∀ (ws : List (String × Bool)) (n : String),
        (n, false) ∈ ws → (n, true) ∈ ws →
        countName n (ws.foldl applyWrite []) = 1 ∧
        ∀ g ∈ ws.foldl applyWrite [], g.name = n → g.is_function = true) ∧
    (∀ (gs : List GlobalEntry) (m : String) (fn : Bool) (i : Nat) (e : GlobalEntry),
        gs.get? i = some e →
        ∃ e', (upsert_global gs m fn (-1)).get? i = some e' ∧
          e'.name = e.name ∧ e'.function_index = e.function_index) := by
  constructor
  · intro ws n _ htrue
    obtain ⟨l1, l2, rfl⟩ := List.append_of_mem htrue
    rw [List.foldl_append, List.foldl_cons]
    have h1 : countName n (l1.foldl applyWrite []) ≤ 1 :=
      fold_count_le n l1 [] (by simp [countName])
    have hinv : allTrueInv n (applyWrite (l1.foldl applyWrite []) (n, true)) :=
      upsert_establish n _ h1
    have h2 : countName n (applyWrite (l1.foldl applyWrite []) (n, true)) ≤ 1 :=
      upsert_count_le n n true (-1) _ h1
    have hfin : allTrueInv n (l2.foldl applyWrite (applyWrite (l1.foldl applyWrite []) (n, true))) :=
      fold_preserves_inv n l2 _ hinv
    have hfc : countName n (l2.foldl applyWrite (applyWrite (l1.foldl applyWrite []) (n, true))) ≤ 1 :=
      fold_count_le n l2 _ h2
    refine ⟨?_, hfin.2⟩
    have hpos : 0 < countName n (l2.foldl applyWrite (applyWrite (l1.foldl applyWrite []) (n, true))) := by
      simp only [countName, List.countP_pos]
      obtain ⟨g, hg, hgn⟩ := hfin.1
      exact ⟨g, hg, by simp [hgn]⟩
    omega
  · intro gs m fn
    induction gs with
    | nil => intro i e h; simp at h
    | cons g rest ih =>
        intro i e h
        by_cases hg : g.name = m
        · simp only [upsert_global, if_pos hg]
          cases i with
          | zero =>
              simp only [List.get?] at h
              cases h
              exact ⟨_, rfl, rfl, by simp⟩
          | succ i =>
              simp only [List.get?] at h ⊢
              exact ⟨e, h, rfl, rfl⟩
        · simp only [upsert_global, if_neg hg]
          cases i with
          | zero =>
              simp only [List.get?] at h ⊢
              cases h
              exact ⟨g, rfl, rfl, rfl⟩
          | succ i =>
              simp only [List.get?] at h ⊢
              exact ih i e h

/-- Witness for C6 at a concrete write sequence and a concrete list. -/
theorem c6_global_dedup_witness :
    (countName "x" ([("x", false), ("x", true)].foldl applyWrite []) = 1 ∧
      ∀ g ∈ [("x", false), ("x", true)].foldl applyWrite [],
        g.name = "x" → g.is_function = true) ∧
    (∃ e', (upsert_global [⟨"y", true, 3⟩] "y" true (-1)).get? 0 = some e' ∧
      e'.name = "y" ∧ e'.function_index = 3) :=
  ⟨c6_global_dedup.1 [("x", false), ("x", true)] "x" (by decide) (by decide),
   c6_global_dedup.2 [⟨"y", true, 3⟩] "y" true 0 ⟨"y", true, 3⟩ rfl⟩

/- -------------------------------------------------------------------------
Characterization of one scan step, per projection.
------------------------------------------------------------------------- -/

/-- Is the opcode a call instruction? -/
def callB (op : OpCode) : Bool := decide (op = .CALL) || decide (op = .TAILCALL)

/-- Does the instruction at `pc` record a closure (a `CLOSURE` whose child
prototype exists and captures at least one upvalue)? -/
def closureHitB (f : Proto) (pc : Nat) : Bool :=
  if (fetch f pc).op = .CLOSURE then
    match f.p.get? (fetch f pc).bx with
    | some child => decide (0 < child.upvalues.length)
    | none => false
  else false

theorem step_call_sites (f : Proto) (st : ScanState) (pc : Nat) :
    (step f st pc).fi.call_sites =
      if callB (fetch f pc).op then st.fi.call_sites ++ [callSiteOf f pc]
      else st.fi.call_sites := by
  cases hop : (fetch f pc).op <;>
    simp [step, hop, callB, beq_iff_eq, returnStep, closureStep, settabupStep,
      gettabupStep, getfieldStep]

theorem step_contains_closures (f : Proto) (st : ScanState) (pc : Nat) :
    (step f st pc).fi.table_info.contains_closures =
      (st.fi.table_info.contains_closures || closureHitB f pc) := by
  cases hop : (fetch f pc).op <;>
    simp only [step, hop, closureHitB, closureStep, settabupStep, gettabupStep,
      getfieldStep, returnStep, Bool.or_false, if_pos, if_neg, reduceCtorEq,
      ite_false, ite_true, reduceIte]
  case RETURN | RETURN0 | RETURN1 =>
    split <;> rfl
  case CLOSURE =>
    cases hch : Proto.p f |>.get? (fetch f pc).bx with
    | none => simp [hch]
    | some child =>
        by_cases hlen : 0 < child.upvalues.length <;> simp [hch, hlen]

/-- Every opcode other than the three returns leaves the return verdict and
the table-shape numbers untouched. -/
theorem step_nonreturn (f : Proto) (st : ScanState) (pc : Nat)
    (h : ¬((fetch f pc).op = .RETURN ∨ (fetch f pc).op = .RETURN0 ∨
           (fetch f pc).op = .RETURN1)) :
    (step f st pc).fi.return_kind = st.fi.return_kind ∧
    (step f st pc).fi.had_real_return = st.fi.had_real_return ∧
    (step f st pc).fi.table_info.array_size = st.fi.table_info.array_size ∧
    (step f st pc).fi.table_info.hash_size = st.fi.table_info.hash_size ∧
    (step f st pc).fi.table_info.estimated_bytes = st.fi.table_info.estimated_bytes := by
  cases hop : (fetch f pc).op <;> simp [hop] at h <;>
    simp [step, hop, closureStep, settabupStep, gettabupStep, getfieldStep]

theorem step_return (f : Proto) (st : ScanState) (pc : Nat)
    (h : (fetch f pc).op = .RETURN ∨ (fetch f pc).op = .RETURN0 ∨
         (fetch f pc).op = .RETURN1) :
    step f st pc = returnStep f st pc := by
  rcases h with h | h | h <;> simp [step, h]

/- -------------------------------------------------------------------------
C4: the contains-closures flag.
------------------------------------------------------------------------- -/

theorem scan_contains_closures (f : Proto) :
    ∀ (l : List Nat) (st : ScanState),
      ((l.foldl (step f) st).fi.table_info.contains_closures = true ↔
        (st.fi.table_info.contains_closures = true ∨ ∃ pc ∈ l, closureHitB f pc = true)) := by
  intro l
  induction l with
  | nil => intro st; simp
  | cons x l ih =>
      intro st
      simp only [List.foldl_cons]
      rw [ih (step f st x)]
      rw [step_contains_closures]
      constructor
      · rintro (hh | hex)
        · rcases Bool.or_eq_true_iff.mp hh with hh | hh
          · exact Or.inl hh
          · exact Or.inr ⟨x, List.mem_cons_self x l, hh⟩
        · obtain ⟨pc, hpc, hhit⟩ := hex
          exact Or.inr ⟨pc, List.mem_cons_of_mem x hpc, hhit⟩
      · rintro (hh | ⟨pc, hpc, hhit⟩)
        · exact Or.inl (by simp [hh])
        · rcases List.mem_cons.mp hpc with rfl | hmem
          · exact Or.inl (by simp [hhit])
          · exact Or.inr ⟨pc, hmem, hhit⟩

/-- C4 (amended): the per-function scan sets the TableShape
contains-closures flag exactly when some instruction of the function is a
`CLOSURE` whose referenced child prototype exists and captures at least one
upvalue. -/
theorem c4_contains_closures (f : Proto) (gs : List GlobalEntry) :
    (scanCode f gs).fi.table_info.contains_closures = true ↔
      ∃ pc, pc < f.code.length ∧ (fetch f pc).op = .CLOSURE ∧
        ∃ child, f.p.get? (fetch f pc).bx = some child ∧ 0 < child.upvalues.length := by
  unfold scanCode
  rw [scan_contains_closures f (List.range f.code.length) (initScanState f gs)]
  have hinit : (initScanState f gs).fi.table_info.contains_closures = false := rfl
  rw [hinit]
  simp only [Bool.false_eq_true, false_or]
  constructor
  · rintro ⟨pc, hpc, hhit⟩
    refine ⟨pc, List.mem_range.mp hpc, ?_⟩
    unfold closureHitB at hhit
    by_cases hop : (fetch f pc).op = .CLOSURE
    · rw [if_pos hop] at hhit
      refine ⟨hop, ?_⟩
      cases hch : f.p.get? (fetch f pc).bx with
      | none => rw [hch] at hhit; cases hhit
      | some child =>
          rw [hch] at hhit
          exact ⟨child, rfl, by simpa using hhit⟩
    · rw [if_neg hop] at hhit; cases hhit
  · rintro ⟨pc, hpc, hop, child, hch, hupv⟩
    refine ⟨pc, List.mem_range.mpr hpc, ?_⟩
    unfold closureHitB
    rw [if_pos hop, hch]
    simpa using hupv

/-- A function whose single `CLOSURE` instruction references a child with
no upvalues. -/
def c4_proto : Proto :=
  .mk none 0 0 0 false
    [⟨.CLOSURE, 0, 0, 0, false, 0, 0⟩, insOf .RETURN0 0]
    [] [] [] []
    none
    [.mk none 1 1 0 false [insOf .RETURN0 0] [] [] [] [] none []]

/-- Counterexample to C4 as stated: this function's instruction stream
contains a closure-construction instruction (at pc 0), yet the recorded
contains-closures flag is false, because the code only sets the flag for
closures that capture at least one upvalue. -/
theorem c4_counterexample :
    (fetch c4_proto 0).op = .CLOSURE ∧
    (scanCode c4_proto []).fi.table_info.contains_closures = false := by
  constructor
  · rfl
  · rfl

/-- Same program, but the child prototype captures one upvalue. -/
def c4_upvalProto : Proto :=
  .mk none 0 0 0 false
    [⟨.CLOSURE, 0, 0, 0, false, 0, 0⟩, insOf .RETURN0 0]
    [] [] [] []
    none
    [.mk none 1 1 0 false [insOf .RETURN0 0] [] [some "u"] [] [] none []]

/-- Witness for C4's amended iff at a concrete input: a closure capturing
one upvalue sets the flag. -/
theorem c4_contains_closures_witness :
    (scanCode c4_upvalProto []).fi.table_info.contains_closures = true :=
  (c4_contains_closures c4_upvalProto []).mpr
    ⟨0, by decide, rfl, .mk none 1 1 0 false [insOf .RETURN0 0] [] [some "u"] [] [] none [],
      rfl, by decide⟩

/- -------------------------------------------------------------------------
C8: call-site argument counts and the tail flag.
------------------------------------------------------------------------- -/

theorem scan_call_sites (f : Proto) :
    ∀ (l : List Nat) (st : ScanState),
      (l.foldl (step f) st).fi.call_sites =
        st.fi.call_sites ++ (l.filter (fun pc => callB (fetch f pc).op)).map (callSiteOf f) := by
  intro l
  induction l with
  | nil => intro st; simp
  | cons x l ih =>
      intro st
      simp only [List.foldl_cons, List.filter_cons]
      rw [ih (step f st x), step_call_sites]
      by_cases hx : callB (fetch f x).op = true
      · simp [hx]
      · simp only [Bool.not_eq_true] at hx
        simp [hx]

/-- C8: per call instruction, the recorded `CallSite` carries argument
count −1 exactly when the declared operand-count field `B` is the sentinel
0 and `B − 1` otherwise, and the tail flag exactly for `OP_TAILCALL`; the
scan records exactly one `CallSite` per `CALL`/`TAILCALL` instruction, in
program order. -/
theorem c8_call_sites :
    (∀ (f : Proto) (gs : List GlobalEntry),
        (scanCode f gs).fi.call_sites =
          ((List.range f.code.length).filter (fun pc => callB (fetch f pc).op)).map
            (callSiteOf f)) ∧
    (∀ (f : Proto) (pc : Nat),
        ((callSiteOf f pc).arg_count =
          if (fetch f pc).b = 0 then (-1 : Int) else ((fetch f pc).b : Int) - 1) ∧
        ((callSiteOf f pc).is_tail = true ↔ (fetch f pc).op = .TAILCALL)) := by
  constructor
  · intro f gs
    unfold scanCode
    rw [scan_call_sites f (List.range f.code.length) (initScanState f gs)]
    have hinit : (initScanState f gs).fi.call_sites = [] := rfl
    rw [hinit]
    rfl
  · intro f pc
    constructor
    · rfl
    · simp [callSiteOf]

/-- A one-call program: `TAILCALL` with `B = 3` (two arguments). -/
def c8_proto : Proto :=
  .mk none 0 0 0 false
    [⟨.TAILCALL, 0, 3, 0, false, 0, 0⟩, insOf .RETURN0 0]
    [] [] [] [] none []

/-- Witness for C8: on the concrete program the single recorded call site
has `arg_count = 2` and `is_tail = true`. -/
theorem c8_call_sites_witness :
    (scanCode c8_proto []).fi.call_sites =
      [callSiteOf c8_proto 0] ∧
    (callSiteOf c8_proto 0).arg_count = 2 ∧
    (callSiteOf c8_proto 0).is_tail = true := by
  refine ⟨?_, ?_, ?_⟩
  · rw [c8_call_sites.1 c8_proto []]
    rfl
  · rw [(c8_call_sites.2 c8_proto 0).1]
    rfl
  · exact (c8_call_sites.2 c8_proto 0).2.mpr rfl

/- -------------------------------------------------------------------------
C3: functions whose only returns hand back a freshly constructed table.
------------------------------------------------------------------------- -/

/-- Is the opcode one of the three return forms? -/
def isRet (op : OpCode) : Prop :=
  op = .RETURN ∨ op = .RETURN0 ∨ op = .RETURN1

instance : DecidablePred isRet := fun op => by unfold isRet; infer_instance

/-- A return instruction handing back exactly one register. -/
def singleValueReturn (ins : Instruction) : Prop :=
  ins.op = .RETURN1 ∨ (ins.op = .RETURN ∧ ins.b = 2)

/-- The returned register was last written by an `OP_NEWTABLE`, with no
intervening instruction reassigning it (instructions outside the analyzer's
register-writer enumeration — in particular the tolerated
`SETFIELD`/`SETTABLE`/`SETI`/`SETLIST` stores — may intervene). -/
def tableOrigin (f : Proto) (pc reg : Nat) : Prop :=
  ∃ i, i < pc ∧ (fetch f i).op = .NEWTABLE ∧ (fetch f i).a = reg ∧
    ∀ j, j < pc → i < j → ¬(fnt_writes (fetch f j).op = true ∧ (fetch f j).a = reg)

instance (ins : Instruction) : Decidable (singleValueReturn ins) := by
  unfold singleValueReturn; infer_instance

instance (f : Proto) (pc reg : Nat) : Decidable (tableOrigin f pc reg) := by
  unfold tableOrigin; infer_instance

theorem tableOrigin_find (f : Proto) (pc reg : Nat) (h : tableOrigin f pc reg) :
    0 ≤ find_newtable_for_reg f pc reg := by
  obtain ⟨i, hi, hnt, ha, hclean⟩ := h
  unfold find_newtable_for_reg
  apply fnt_go_complete
  exact ⟨i, by omega, by omega, hnt, ha,
    fun j hj1 hj2 => hclean j (by omega) hj1⟩

theorem classify_tableOrigin (f : Proto) (pc : Nat) (lnt : Int)
    (h1 : singleValueReturn (fetch f pc))
    (h2 : tableOrigin f pc (fetch f pc).a) :
    classify_return f pc lnt = .TABLE := by
  have hfind := tableOrigin_find f pc (fetch f pc).a h2
  rcases h1 with h1 | ⟨h1, hb⟩
  · unfold classify_return
    rw [if_neg (by simp [h1]), if_pos h1, if_pos hfind]
  · unfold classify_return
    rw [if_neg (by simp [h1]), if_neg (by simp [h1]), if_neg (by simp [hb]),
      if_neg (by simp [hb]), if_pos hb, if_pos hfind]

theorem merge_to_table :
    ∀ had : Bool, (mergeReturnKind (.UNKNOWN, had) .TABLE).1 = .TABLE ∧
      (mergeReturnKind (.TABLE, had) .TABLE).1 = .TABLE := by decide

/-- The byte-footprint formula of the spec. -/
def bytesEq (ti : TableInfo) : Prop :=
  ti.estimated_bytes = 32 + ti.array_size * 16 + ti.hash_size * 32

theorem returnStep_table (f : Proto) (st : ScanState) (pc : Nat)
    (hk : classify_return f pc st.last_newtable_pc = .TABLE)
    (hrk : st.fi.return_kind = .UNKNOWN ∨ st.fi.return_kind = .TABLE) :
    (returnStep f st pc).fi.return_kind = .TABLE ∧
    bytesEq (returnStep f st pc).fi.table_info := by
  constructor
  · show (mergeReturnKind (st.fi.return_kind, st.fi.had_real_return)
        (classify_return f pc st.last_newtable_pc)).1 = .TABLE
    rw [hk]
    rcases hrk with h | h <;> rw [h]
    · exact (merge_to_table st.fi.had_real_return).1
    · exact (merge_to_table st.fi.had_real_return).2
  · show bytesEq (if classify_return f pc st.last_newtable_pc = .TABLE then _ else _)
    rw [if_pos hk]
    unfold bytesEq
    rfl

/-- The scan invariant for C3: either no return has been merged yet and the
verdict is still UNKNOWN, or the verdict is TABLE and the byte formula
holds. -/
def c3Inv (st : ScanState) : Prop :=
  st.fi.return_kind = .UNKNOWN ∨
  (st.fi.return_kind = .TABLE ∧ bytesEq st.fi.table_info)

/-- `Good`: the verdict is TABLE and the byte formula holds. -/
def c3Good (st : ScanState) : Prop :=
  st.fi.return_kind = .TABLE ∧ bytesEq st.fi.table_info

theorem c3_step (f : Proto) (st : ScanState) (pc : Nat)
    (hall : pc < f.code.length → isRet (fetch f pc).op →
      singleValueReturn (fetch f pc) ∧ tableOrigin f pc (fetch f pc).a)
    (hpc : pc < f.code.length) :
    (c3Inv st → c3Inv (step f st pc)) ∧
    (c3Good st → c3Good (step f st pc)) ∧
    (c3Inv st → isRet (fetch f pc).op → c3Good (step f st pc)) := by
  by_cases hret : isRet (fetch f pc).op
  · obtain ⟨hsv, hto⟩ := hall hpc hret
    have hcls : ∀ lnt, classify_return f pc lnt = .TABLE :=
      fun lnt => classify_tableOrigin f pc lnt hsv hto
    have hstep : step f st pc = returnStep f st pc := step_return f st pc hret
    refine ⟨?_, ?_, ?_⟩
    · intro hinv
      rw [hstep]
      right
      exact returnStep_table f st pc (hcls _) (by
        rcases hinv with h | h
        · exact Or.inl h
        · exact Or.inr h.1)
    · intro hgood
      rw [hstep]
      exact returnStep_table f st pc (hcls _) (Or.inr hgood.1)
    · intro hinv _
      rw [hstep]
      exact returnStep_table f st pc (hcls _) (by
        rcases hinv with h | h
        · exact Or.inl h
        · exact Or.inr h.1)
  · obtain ⟨hrk, _, harr, hhsh, hbytes⟩ := step_nonreturn f st pc (by
      intro hc
      exact hret (by unfold isRet; exact hc))
    refine ⟨?_, ?_, ?_⟩
    · intro hinv
      unfold c3Inv bytesEq at hinv ⊢
      rw [hrk, harr, hhsh, hbytes]
      exact hinv
    · intro hgood
      unfold c3Good bytesEq at hgood ⊢
      rw [hrk, harr, hhsh, hbytes]
      exact hgood
    · intro _ hr
      exact absurd hr hret

theorem c3_fold_good (f : Proto)
    (hall : ∀ pc, pc < f.code.length → isRet (fetch f pc).op →
      singleValueReturn (fetch f pc) ∧ tableOrigin f pc (fetch f pc).a) :
    ∀ (l : List Nat), (∀ x ∈ l, x < f.code.length) →
      ∀ st : ScanState, c3Good st → c3Good (l.foldl (step f) st) := by
  intro l
  induction l with
  | nil => intro _ st h; exact h
  | cons x l ih =>
      intro hmem st hgood
      simp only [List.foldl_cons]
      exact ih (fun y hy => hmem y (List.mem_cons_of_mem x hy)) _
        ((c3_step f st x (hall x) (hmem x (List.mem_cons_self x l))).2.1 hgood)

theorem c3_fold_reach (f : Proto)
    (hall : ∀ pc, pc < f.code.length → isRet (fetch f pc).op →
      singleValueReturn (fetch f pc) ∧ tableOrigin f pc (fetch f pc).a) :
    ∀ (l : List Nat), (∀ x ∈ l, x < f.code.length) →
      ∀ st : ScanState, c3Inv st → (∃ x ∈ l, isRet (fetch f x).op) →
        c3Good (l.foldl (step f) st) := by
  intro l
  induction l with
  | nil => rintro _ st _ ⟨x, hx, _⟩; cases hx
  | cons x l ih =>
      rintro hmem st hinv hex
      simp only [List.foldl_cons]
      have hx := hmem x (List.mem_cons_self x l)
      by_cases hret : isRet (fetch f x).op
      · exact c3_fold_good f hall l (fun y hy => hmem y (List.mem_cons_of_mem x hy)) _
          ((c3_step f st x (hall x) hx).2.2 hinv hret)
      · obtain ⟨y, hy, hyr⟩ := hex
        rcases List.mem_cons.mp hy with rfl | hymem
        · exact absurd hyr hret
        · exact ih (fun z hz => hmem z (List.mem_cons_of_mem x hz)) _
            ((c3_step f st x (hall x) hx).1 hinv) ⟨y, hymem, hyr⟩

/-- C3: if every return instruction of a function hands back a single
register that traces to a table-construction site (no intervening
reassignment; table stores tolerated), and at least one return exists, the
function's merged return kind is TABLE and the recorded TableShape
satisfies `estimated_bytes = 32 + array_size*16 + hash_size*32` exactly. -/
theorem c3_table_return (f : Proto) (gs : List GlobalEntry)
    (hex : ∃ pc, pc < f.code.length ∧ isRet (fetch f pc).op)
    (hall : ∀ pc, pc < f.code.length → isRet (fetch f pc).op →
      singleValueReturn (fetch f pc) ∧ tableOrigin f pc (fetch f pc).a) :
    (scanCode f gs).fi.return_kind = .TABLE ∧
    (scanCode f gs).fi.table_info.estimated_bytes =
      32 + (scanCode f gs).fi.table_info.array_size * 16 +
        (scanCode f gs).fi.table_info.hash_size * 32 := by
  have hinit : c3Inv (initScanState f gs) := Or.inl rfl
  obtain ⟨pc, hpc, hret⟩ := hex
  have := c3_fold_reach f hall (List.range f.code.length)
    (fun x hx => List.mem_range.mp hx) (initScanState f gs) hinit
    ⟨pc, List.mem_range.mpr hpc, hret⟩
  exact ⟨this.1, this.2⟩

/-- Witness for C3 on the concrete table-returning program: the verdict is
TABLE with `array_size = 3`, `hash_size = 1`, `estimated_bytes = 112`. -/
theorem c3_table_return_witness :
    (scanCode tableRetProto []).fi.return_kind = .TABLE ∧
    (scanCode tableRetProto []).fi.table_info.estimated_bytes =
      32 + (scanCode tableRetProto []).fi.table_info.array_size * 16 +
        (scanCode tableRetProto []).fi.table_info.hash_size * 32 :=
  c3_table_return tableRetProto []
    ⟨2, by decide, by decide⟩
    (by decide)

/- -------------------------------------------------------------------------
C7: child indices always point strictly past their record.
------------------------------------------------------------------------- -/

theorem modifyNth_length (g : α → α) :
    ∀ (nn : Nat) (l : List α), (modifyNth g nn l).length = l.length := by
  intro nn
  induction nn with
  | zero => intro l; cases l <;> rfl
  | succ nn ih => intro l; cases l with
      | nil => rfl
      | cons x xs => simp [modifyNth, ih]

theorem modifyNth_get?_ne (g : α → α) :
    ∀ (nn : Nat) (l : List α) (i : Nat), nn ≠ i →
      (modifyNth g nn l).get? i = l.get? i := by
  intro nn
  induction nn with
  | zero =>
      intro l i hne
      cases l with
      | nil => rfl
      | cons x xs => cases i with
          | zero => exact absurd rfl hne
          | succ i => rfl
  | succ nn ih =>
      intro l i hne
      cases l with
      | nil => rfl
      | cons x xs => cases i with
          | zero => rfl
          | succ i => simpa [modifyNth] using ih xs i (by omega)

theorem modifyNth_get?_eq (g : α → α) :
    ∀ (nn : Nat) (l : List α), (modifyNth g nn l).get? nn = (l.get? nn).map g := by
  intro nn
  induction nn with
  | zero => intro l; cases l <;> rfl
  | succ nn ih => intro l; cases l with
      | nil => rfl
      | cons x xs => simpa [modifyNth] using ih xs

theorem step_children (f : Proto) (st : ScanState) (pc : Nat) :
    (step f st pc).fi.child_proto_indices = st.fi.child_proto_indices := by
  cases hop : (fetch f pc).op <;>
    simp [step, hop, returnStep, closureStep, settabupStep, gettabupStep,
      getfieldStep]

theorem scan_children (f : Proto) (gs : List GlobalEntry) :
    (scanCode f gs).fi.child_proto_indices = [] := by
  unfold scanCode
  have : ∀ (l : List Nat) (st : ScanState),
      (l.foldl (step f) st).fi.child_proto_indices = st.fi.child_proto_indices := by
    intro l
    induction l with
    | nil => intro st; rfl
    | cons x l ih => intro st; simp only [List.foldl_cons]; rw [ih, step_children]
  rw [this]
  rfl

/-- The per-call contract of `analyze_function` needed for the child-index
invariant. -/
def WalkP (f : Proto) : Prop :=
  ∀ r : InterfaceReport,
    (∀ i, i < r.functions.length →
      (walk f r).functions.get? i = r.functions.get? i) ∧
    (r.functions.length < (walk f r).functions.length) ∧
    (∀ i rec, r.functions.length ≤ i →
      (walk f r).functions.get? i = some rec →
      ∀ c ∈ rec.child_proto_indices, i < c)

/-- The contract of the child loop. -/
def WalkListP (ps : List Proto) : Prop :=
  ∀ (r : InterfaceReport) (myIdx : Nat), myIdx < r.functions.length →
    (∀ i, i < r.functions.length → i ≠ myIdx →
      (walkList ps r myIdx).functions.get? i = r.functions.get? i) ∧
    (r.functions.length ≤ (walkList ps r myIdx).functions.length) ∧
    (∀ rec, r.functions.get? myIdx = some rec →
      ∃ rec' extra, (walkList ps r myIdx).functions.get? myIdx = some rec' ∧
        rec'.child_proto_indices = rec.child_proto_indices ++ extra ∧
        ∀ c ∈ extra, r.functions.length ≤ c) ∧
    (∀ i rec, r.functions.length ≤ i →
      (walkList ps r myIdx).functions.get? i = some rec →
      ∀ c ∈ rec.child_proto_indices, i < c)

theorem walk_spec : ∀ n : Nat,
    (∀ f : Proto, sizeOf f ≤ n → WalkP f) ∧
    (∀ ps : List Proto, sizeOf ps ≤ n → WalkListP ps) := by
  intro n
  induction n using Nat.strong_induction_on with
  | _ n ih =>
    constructor
    · -- WalkP from WalkListP of the (smaller) child list
      intro f hf
      obtain ⟨src, ld, lld, np, vy, code, ks, upv, lv, ali, li, children⟩ := f
      have hsz : sizeOf children < n := by
        have : sizeOf children <
            sizeOf (Proto.mk src ld lld np vy code ks upv lv ali li children) := by
          simp only [Proto.mk.sizeOf_spec]
          omega
        omega
      have WL : WalkListP children :=
        (ih (sizeOf children) hsz).2 children (Nat.le_refl _)
      intro r
      set F := Proto.mk src ld lld np vy code ks upv lv ali li children with hF
      set st := scanCode F r.globals with hst
      set r1 : InterfaceReport := ⟨r.functions ++ [st.fi], st.globals⟩ with hr1
      have hfuncs : (walk F r).functions =
          (walkList children r1 r.functions.length).functions := by
        rw [walk]
      have hlen1 : r1.functions.length = r.functions.length + 1 := by
        simp [hr1]
      have hmy : r.functions.length < r1.functions.length := by omega
      obtain ⟨l1, l2, l3, l4⟩ := WL r1 r.functions.length hmy
      refine ⟨?_, ?_, ?_⟩
      · intro i hi
        rw [hfuncs, l1 i (by omega) (by omega)]
        simp only [hr1]
        exact List.get?_append hi
      · rw [hfuncs]; omega
      · intro i rec hge hget
        rw [hfuncs] at hget
        rcases Nat.lt_or_ge i r1.functions.length with hlt | hge1
        · -- i = my_index: the freshly pushed record
          have hieq : i = r.functions.length := by omega
          subst hieq
          have hr1my : r1.functions.get? r.functions.length = some st.fi := by
            simp only [hr1]
            exact List.get?_concat_length r.functions st.fi
          obtain ⟨rec', extra, hget', hchild, hcge⟩ := l3 st.fi hr1my
          rw [hget'] at hget
          cases hget
          intro c hc
          rw [hchild, scan_children] at hc
          simp only [List.nil_append] at hc
          have := hcge c hc
          omega
        · exact l4 i rec (by omega) hget
    · -- WalkListP by cases on the list, using WalkP of each child
      intro ps hps
      cases ps with
      | nil =>
          intro r myIdx hmy
          have heq : walkList [] r myIdx = r := by rw [walkList]
          refine ⟨?_, ?_, ?_, ?_⟩
          · intro i _ _; rw [heq]
          · rw [heq]
          · intro rec hrec
            exact ⟨rec, [], by rw [heq]; exact hrec, by simp, by intro c hc; cases hc⟩
          · intro i rec hge hget
            rw [heq] at hget
            have : r.functions.get? i = none := List.get?_eq_none.mpr hge
            rw [this] at hget
            cases hget
      | cons ch rest =>
          have hsz1 : sizeOf ch < n := by
            have : sizeOf ch < sizeOf (ch :: rest) := by
              simp only [List.cons.sizeOf_spec]; omega
            omega
          have hsz2 : sizeOf rest < n := by
            have : sizeOf rest < sizeOf (ch :: rest) := by
              simp only [List.cons.sizeOf_spec]; omega
            omega
          have Wch : WalkP ch := (ih (sizeOf ch) hsz1).1 ch (Nat.le_refl _)
          have WLrest : WalkListP rest := (ih (sizeOf rest) hsz2).2 rest (Nat.le_refl _)
          intro r myIdx hmy
          set r1 : InterfaceReport :=
            ⟨pushChildIndex r.functions myIdx r.functions.length, r.globals⟩ with hr1
          set A := walk ch r1 with hA
          have heq : walkList (ch :: rest) r myIdx = walkList rest A myIdx := by
            rw [walkList]
          have hlen1 : r1.functions.length = r.functions.length := by
            simp only [hr1, pushChildIndex]
            exact modifyNth_length _ _ _
          obtain ⟨a1, a2, a3⟩ := Wch r1
          rw [← hA] at a1 a2 a3
          have hAlen : r.functions.length < A.functions.length := by omega
          obtain ⟨b1, b2, b3, b4⟩ := WLrest A myIdx (by omega)
          refine ⟨?_, ?_, ?_, ?_⟩
          · intro i hi hne
            rw [heq, b1 i (by omega) hne, a1 i (by omega)]
            simp only [hr1, pushChildIndex]
            exact modifyNth_get?_ne _ myIdx _ i (Ne.symm hne)
          · rw [heq]; omega
          · intro rec hrec
            have hr1my : r1.functions.get? myIdx =
                some { rec with child_proto_indices :=
                  rec.child_proto_indices ++ [r.functions.length] } := by
              simp only [hr1, pushChildIndex]
              rw [modifyNth_get?_eq, hrec]
              rfl
            have hAmy : A.functions.get? myIdx =
                some { rec with child_proto_indices :=
                  rec.child_proto_indices ++ [r.functions.length] } := by
              rw [a1 myIdx (by omega)]
              exact hr1my
            obtain ⟨rec', extra, hget', hchild, hcge⟩ := b3 _ hAmy
            refine ⟨rec', r.functions.length :: extra, by rw [heq]; exact hget', ?_, ?_⟩
            · rw [hchild]
              simp
            · intro c hc
              rcases List.mem_cons.mp hc with rfl | hmem
              · exact Nat.le_refl _
              · have := hcge c hmem
                omega
          · intro i rec hge hget
            rw [heq] at hget
            rcases Nat.lt_or_ge i A.functions.length with hlt | hge1
            · have hne : i ≠ myIdx := by omega
              rw [b1 i hlt hne] at hget
              exact a3 i rec (by omega) hget
            · exact b4 i rec (by omega) hget

/-- C7: in the finished report, every index stored in a record's
`child_proto_indices` is strictly greater than the record's own index in
the `functions` array (depth-first preorder numbering). -/
theorem c7_child_indices (f : Proto) (i : Nat) (rec : FunctionInfo)
    (h : (analyze_proto f).functions.get? i = some rec) :
    ∀ c ∈ rec.child_proto_indices, i < c := by
  have W : WalkP f := (walk_spec (sizeOf f)).1 f (Nat.le_refl _)
  obtain ⟨_, _, w3⟩ := W ⟨[], []⟩
  exact w3 i rec (Nat.zero_le i) h

/-- A chunk with one nested function. -/
def c7_nested : Proto :=
  .mk none 0 0 0 false
    [⟨.CLOSURE, 0, 0, 0, false, 0, 0⟩, insOf .RETURN0 0]
    [] [] [] []
    none
    [.mk none 1 1 0 false [insOf .RETURN0 0] [] [] [] [] none []]

/-- The record the analysis produces for `c7_nested`'s main chunk. -/
def c7_rec0 : FunctionInfo :=
  { source := "?", line_defined := 0, last_line := 0, param_count := 0,
    is_vararg := false, is_vararg_used := false, is_method := false,
    param_names := [], upvalue_count := 0, upvalue_names := [],
    return_kind := .VOID, table_info := ⟨0, 0, 0, false⟩,
    had_real_return := false, closures := [], constants := [],
    child_proto_indices := [1], call_sites := [], reads := [] }

/-- Witness for C7 at the concrete two-function prototype tree: the main
chunk sits at index 0, its child list is `[1]`, and 1 is greater than 0. -/
theorem c7_child_indices_witness :
    c7_rec0.child_proto_indices = [1] ∧ 0 < 1 :=
  ⟨rfl,
    c7_child_indices c7_nested 0 c7_rec0
      (by
        show (walk c7_nested ⟨[], []⟩).functions.get? 0 = some c7_rec0
        simp only [c7_nested, walk, walkList]
        decide)
      1 (by decide)⟩

/- -------------------------------------------------------------------------
C9: determinism of analysis plus serialization.
------------------------------------------------------------------------- -/

/-- C9: analysis and serialization are deterministic.  The embedding is a
pure function of the prototype tree — the analyzer allocates no
observable nondeterminism (the JSON never prints addresses, and the field
order is fixed by the writers) — so two runs over the same tree serialize
to byte-identical output. -/
theorem c9_deterministic (f : Proto) :
    report_to_json_string (analyze_proto f) = report_to_json_string (analyze_proto f) ∧
    print_report_json (analyze_proto f) = print_report_json (analyze_proto f) :=
  ⟨rfl, rfl⟩

end Diluvium
